import Mathlib

/-!
Verification development for the AI-LLM-Schema-Generator crawler
(`schema_crawler.py`).  Python strings are embedded as `List Char`;
the relevant parts of `urllib.parse` (CPython 3.11) are embedded
faithfully because `normalize_url` and `same_registrable_domain`
delegate to them.  Machine-checked statements about the crawl loop,
sitemap discovery, fetching, truncation, the retry controller and the
outline builder follow the definitions.
-/

namespace SchemaCrawler

/-- Python `str` values are modelled as lists of characters. -/
abbrev Str := List Char

/-- ASCII lower-casing of one character, as Python's `str.lower` acts on
the ASCII range (all characters we reason about are ASCII). -/
def lowerChar (c : Char) : Char := c.toLower

/-- Characters allowed in a URL scheme (`urllib.parse.scheme_chars`). -/
def schemeChar (c : Char) : Bool :=
  c.isAlpha || c.isDigit || c == '+' || c == '-' || c == '.'

/-- Python `url.split(sep, 1)`: text before the first occurrence of `c`,
and `some` rest after it (or `none` if `c` does not occur). -/
def splitOnce (c : Char) : Str → Str × Option Str
  | [] => ([], none)
  | x :: t =>
    if x = c then ([], some t)
    else ((x :: (splitOnce c t).1), (splitOnce c t).2)

/-- Whitespace characters stripped by Python's `str.strip()` (ASCII part). -/
def isPySpace (c : Char) : Bool :=
  c == ' ' || c == '\t' || c == '\n' || c == '\r' || c == '\x0b' || c == '\x0c'

/-- Python `str.strip()`. -/
def pyStrip (s : Str) : Str :=
  ((s.dropWhile isPySpace).reverse.dropWhile isPySpace).reverse

/-- The part of a string after its last `/` (all of it if no slash). -/
def lastSeg (x : Str) : Str := (x.reverse.takeWhile (· ≠ '/')).reverse

/-- The part of a string up to and including its last `/`. -/
def dropSeg (x : Str) : Str := (x.reverse.dropWhile (· ≠ '/')).reverse

/-- Python `sep.join(parts)`. -/
def joinSep (sep : Str) : List Str → Str
  | [] => []
  | [x] => x
  | x :: xs => x ++ sep ++ joinSep sep xs

/-- Helper for `splitlines`: `acc` is the current line, reversed. -/
def splitlinesGo (acc : Str) : Str → List Str
  | [] => [acc.reverse]
  | '\r' :: '\n' :: t => acc.reverse :: (if t = [] then [] else splitlinesGo [] t)
  | '\n' :: t => acc.reverse :: (if t = [] then [] else splitlinesGo [] t)
  | '\r' :: t => acc.reverse :: (if t = [] then [] else splitlinesGo [] t)
  | c :: t => splitlinesGo (c :: acc) t

/-- Python `str.splitlines()` restricted to the line breaks that occur in
the inputs we reason about (`\n`, `\r`, `\r\n`). -/
def splitlines (l : Str) : List Str :=
  if l = [] then [] else splitlinesGo [] l

/-! ## `urllib.parse` (CPython 3.11)

`normalize_url` and `same_registrable_domain` in `schema_crawler.py`
delegate to `urllib.parse`, so its relevant functions are embedded here,
following `/usr/lib/python3.11/urllib/parse.py`.  `Option` models the
`ValueError` that `urlsplit` can raise (caught by the crawler's
`try`/`except` blocks).  The `_checknetloc` NFKC check, which can only
raise for non-ASCII authorities, is not modelled. -/

/-- `urllib.parse.uses_relative`. -/
def usesRelative : List Str :=
  ["", "ftp", "http", "gopher", "nntp", "imap", "wais", "file", "https",
   "shttp", "mms", "prospero", "rtsp", "rtspu", "sftp", "svn", "svn+ssh",
   "ws", "wss"].map String.toList

/-- `urllib.parse.uses_netloc`. -/
def usesNetloc : List Str :=
  ["", "ftp", "http", "gopher", "nntp", "telnet", "imap", "wais", "file",
   "mms", "https", "shttp", "snews", "prospero", "rtsp", "rtspu", "rsync",
   "svn", "svn+ssh", "sftp", "nfs", "git", "git+ssh", "ws",
   "wss"].map String.toList

/-- `urllib.parse.uses_params`. -/
def usesParams : List Str :=
  ["", "ftp", "hdl", "prospero", "http", "imap", "https", "shttp", "rtsp",
   "rtspu", "sip", "sips", "mms", "sftp", "tel"].map String.toList

/-- Removal of `_UNSAFE_URL_BYTES_TO_REMOVE` (`\t`, `\r`, `\n`) done at the
top of `urlsplit`. -/
def dropTabCrLf (s : Str) : Str :=
  s.filter (fun c => ¬ (c = '\t' ∨ c = '\r' ∨ c = '\n'))

/-- The delimiters `/?#` that end the network-location part
(`_splitnetloc`). -/
def netlocDelim (c : Char) : Bool := c == '/' || c == '?' || c == '#'

/-- Head of a string is an (ASCII) letter — `url[0].isascii() and
url[0].isalpha()`. -/
def headIsAlpha : Str → Bool
  | [] => false
  | c :: _ => c.isAlpha

/-- Result of `urlsplit`. -/
structure SplitResult where
  scheme : Str
  netloc : Str
  path : Str
  query : Str
  fragment : Str
deriving DecidableEq

/-- Result of `urlparse`. -/
structure ParseResult where
  scheme : Str
  netloc : Str
  path : Str
  params : Str
  query : Str
  fragment : Str
deriving DecidableEq

/-- The scheme-detection step of `urlsplit`: first argument is the
default scheme, second the (sanitized) URL. -/
def splitScheme (dflt url1 : Str) : Str × Str :=
  match splitOnce ':' url1 with
  | (pre, some suf) =>
    if pre ≠ [] ∧ headIsAlpha pre ∧ pre.all schemeChar
    then (pre.map Char.toLower, suf)
    else (dflt, url1)
  | (_, none) => (dflt, url1)

/-- The `//`-netloc step of `urlsplit` (`_splitnetloc`). -/
def splitNetloc (rest : Str) : Str × Str :=
  if rest.take 2 = ['/', '/'] then
    ((rest.drop 2).takeWhile (fun c => !netlocDelim c),
     (rest.drop 2).dropWhile (fun c => !netlocDelim c))
  else ([], rest)

/-- Python `l.split(c, 1)` returning `(before, after-or-empty)`. -/
def splitAtChar (c : Char) (l : Str) : Str × Str :=
  match splitOnce c l with
  | (pre, some suf) => (pre, suf)
  | (pre, none) => (pre, [])

/-- `urllib.parse.urlsplit(url, scheme, allow_fragments=True)`; `none`
models the `ValueError` raised for an authority with unbalanced square
brackets. -/
def urlsplit (url0 scheme0 : Str) : Option SplitResult :=
  let sr := splitScheme (dropTabCrLf scheme0) (dropTabCrLf url0)
  let nr := splitNetloc sr.2
  if ('[' ∈ nr.1 ∧ ']' ∉ nr.1) ∨ (']' ∈ nr.1 ∧ '[' ∉ nr.1) then none
  else
    let fr := splitAtChar '#' nr.2
    let qr := splitAtChar '?' fr.1
    some ⟨sr.1, nr.1, qr.1, qr.2, fr.2⟩

/-- `urllib.parse._splitparams`; only reached when `';' ∈ url`.  The
first `;` at or after the last `/` (the first `;` of `lastSeg p`)
separates path from params. -/
def splitparams (p : Str) : Str × Str :=
  if '/' ∈ p then
    match (splitOnce ';' (lastSeg p)).2 with
    | some suf => (p.take (p.length - (lastSeg p).length) ++ (splitOnce ';' (lastSeg p)).1, suf)
    | none => (p, [])
  else
    match (splitOnce ';' p).2 with
    | some suf => ((splitOnce ';' p).1, suf)
    | none => (p, [])

/-- `urllib.parse.urlparse(url, scheme, allow_fragments=True)`. -/
def urlparse (url scheme : Str) : Option ParseResult :=
  match urlsplit url scheme with
  | none => none
  | some r =>
    if r.scheme ∈ usesParams ∧ ';' ∈ r.path then
      some ⟨r.scheme, r.netloc, (splitparams r.path).1, (splitparams r.path).2,
            r.query, r.fragment⟩
    else some ⟨r.scheme, r.netloc, r.path, [], r.query, r.fragment⟩

/-- `urllib.parse.urlunsplit` (CPython 3.11 version, which re-inserts
`//` for `uses_netloc` schemes). -/
def urlunsplit (scheme netloc path query fragment : Str) : Str :=
  let url0 :=
    if netloc ≠ [] ∨ (scheme ≠ [] ∧ scheme ∈ usesNetloc ∧ path.take 2 ≠ ['/', '/'])
    then
      let url1 := if path ≠ [] ∧ path.take 1 ≠ ['/'] then '/' :: path else path
      ['/', '/'] ++ netloc ++ url1
    else path
  let url2 := if scheme ≠ [] then scheme ++ [':'] ++ url0 else url0
  let url3 := if query ≠ [] then url2 ++ ['?'] ++ query else url2
  if fragment ≠ [] then url3 ++ ['#'] ++ fragment else url3

/-- The path-with-params recombination done by `urlunparse`. -/
def recombParams (p : ParseResult) : Str :=
  if p.params ≠ [] then p.path ++ [';'] ++ p.params else p.path

/-- `urllib.parse.urlunparse`. -/
def urlunparse (p : ParseResult) : Str :=
  urlunsplit p.scheme p.netloc (recombParams p) p.query p.fragment

/-- `filter(None, segments[1:-1])` applied in `urljoin`: drop empty
segments except for the first and last. -/
def keepLastFilter : List Str → List Str
  | [] => []
  | [a] => [a]
  | a :: rest => if a = [] then keepLastFilter rest else a :: keepLastFilter rest

/-- First element kept unconditionally, then `keepLastFilter`. -/
def filterMiddle : List Str → List Str
  | [] => []
  | a :: rest => a :: keepLastFilter rest

/-- The `..`/`.` resolution loop of `urljoin`. -/
def resolveSegs (segs : List Str) : List Str :=
  segs.foldl (fun acc seg =>
    if seg = ['.', '.'] then acc.dropLast
    else if seg = ['.'] then acc
    else acc ++ [seg]) []

/-- `urllib.parse.urljoin(base, url)`. -/
def urljoin (base url : Str) : Option Str :=
  if base = [] then some url
  else if url = [] then some base
  else
    match urlparse base [] with
    | none => none
    | some b =>
      match urlparse url b.scheme with
      | none => none
      | some u =>
        if u.scheme ≠ b.scheme ∨ u.scheme ∉ usesRelative then some url
        else if u.scheme ∈ usesNetloc ∧ u.netloc ≠ [] then
          some (urlunparse ⟨u.scheme, u.netloc, u.path, u.params, u.query, u.fragment⟩)
        else
          let netloc2 := if u.scheme ∈ usesNetloc then b.netloc else u.netloc
          if u.path = [] ∧ u.params = [] then
            some (urlunparse ⟨u.scheme, netloc2, b.path, b.params,
              (if u.query = [] then b.query else u.query), u.fragment⟩)
          else
            let baseParts0 := b.path.splitOn '/'
            let baseParts :=
              if baseParts0.getLast? ≠ some [] then baseParts0.dropLast else baseParts0
            let segments :=
              if u.path.take 1 = ['/'] then u.path.splitOn '/'
              else filterMiddle (baseParts ++ u.path.splitOn '/')
            let resolved0 := resolveSegs segments
            let resolved :=
              if segments.getLast? = some ['.'] ∨ segments.getLast? = some ['.', '.']
              then resolved0 ++ [[]] else resolved0
            let newPath := if joinSep ['/'] resolved = [] then ['/'] else joinSep ['/'] resolved
            some (urlunparse ⟨u.scheme, netloc2, newPath, u.params, u.query, u.fragment⟩)

/-! ## URL helpers of `schema_crawler.py` -/

/-- `normalize_url` (schema_crawler.py lines 65-77): join against the
base, require the scheme to start with `"http"`, drop the fragment;
`none` on empty link or any parse error. -/
def normalize_url (base link : Str) : Option Str :=
  if link = [] then none
  else
    match urljoin base link with
    | none => none
    | some joined =>
      match urlparse joined [] with
      | none => none
      | some p =>
        if "http".toList.isPrefixOf p.scheme then
          some (urlunparse ⟨p.scheme, p.netloc, p.path, p.params, p.query, []⟩)
        else none

/-- The `hostname` accessor of a parse result (`_hostinfo` plus the
lower-casing in the `hostname` property); `none` models Python's `None`
for an empty host. -/
def hostnameOf (netloc : Str) : Option Str :=
  let hostinfo := (netloc.reverse.takeWhile (· ≠ '@')).reverse
  let hostport :=
    match splitOnce '[' hostinfo with
    | (_, some br) => br.takeWhile (· ≠ ']')
    | (_, none) => hostinfo.takeWhile (· ≠ ':')
  if hostport = [] then none
  else
    match splitOnce '%' hostport with
    | (h, some z) => some (h.map Char.toLower ++ ['%'] ++ z)
    | (h, none) => some (h.map Char.toLower)

/-- `same_registrable_domain` (schema_crawler.py lines 80-89): equal
hostnames, or the first hostname ends with `"." + second hostname`.
The `try`/`except` yields `false` on parse errors. -/
def same_registrable_domain (a b : Str) : Bool :=
  match urlparse a [], urlparse b [] with
  | some pa, some pb =>
    let ha := hostnameOf pa.netloc
    let hb := hostnameOf pb.netloc
    ha == hb ||
      (match ha, hb with
       | some x, some y => List.isSuffixOf ('.' :: y) x
       | _, _ => false)
  | _, _ => false

/-- `is_navigable_link` (schema_crawler.py lines 92-99). -/
def is_navigable_link (href : Str) : Bool :=
  href ≠ [] &&
  ¬ "mailto:".toList.isPrefixOf href &&
  ¬ "tel:".toList.isPrefixOf href &&
  ¬ "javascript:".toList.isPrefixOf href

/-! ## Character lemmas -/

theorem char_ofNat_toNat (n : Nat) (h : n.isValidChar) : (Char.ofNat n).toNat = n := by
  simp [Char.ofNat, h, Char.toNat, Char.ofNatAux, UInt32.toNat, UInt32.ofNatCore]

theorem isAlpha_iff_toNat (c : Char) :
    c.isAlpha = true ↔ ((65 ≤ c.toNat ∧ c.toNat ≤ 90) ∨ (97 ≤ c.toNat ∧ c.toNat ≤ 122)) := by
  simp [Char.isAlpha, Char.isUpper, Char.isLower, Char.le_def, UInt32.le_def,
        BitVec.le_def, Char.toNat, UInt32.toNat]

theorem isDigit_iff_toNat (c : Char) :
    c.isDigit = true ↔ (48 ≤ c.toNat ∧ c.toNat ≤ 57) := by
  simp [Char.isDigit, Char.le_def, UInt32.le_def, BitVec.le_def, Char.toNat, UInt32.toNat]

theorem toLower_eq_self {c : Char} (h : ¬ (65 ≤ c.toNat ∧ c.toNat ≤ 90)) : c.toLower = c := by
  unfold Char.toLower
  rw [if_neg (by omega)]

theorem toLower_toNat_upper {c : Char} (h1 : 65 ≤ c.toNat) (h2 : c.toNat ≤ 90) :
    c.toLower.toNat = c.toNat + 32 := by
  unfold Char.toLower
  rw [if_pos (by omega)]
  exact char_ofNat_toNat _ (Or.inl (by omega))

theorem toLower_idem (c : Char) : c.toLower.toLower = c.toLower := by
  by_cases h : 65 ≤ c.toNat ∧ c.toNat ≤ 90
  · apply toLower_eq_self
    rw [toLower_toNat_upper h.1 h.2]
    omega
  · rw [toLower_eq_self h, toLower_eq_self h]

theorem toLower_isAlpha {c : Char} (h : c.isAlpha = true) : c.toLower.isAlpha = true := by
  rw [isAlpha_iff_toNat] at h ⊢
  rcases h with h | h
  · rw [toLower_toNat_upper h.1 h.2]; omega
  · rw [toLower_eq_self (by omega)]; omega

theorem schemeChar_cases {c : Char} (h : schemeChar c = true) :
    (65 ≤ c.toNat ∧ c.toNat ≤ 90) ∨ (97 ≤ c.toNat ∧ c.toNat ≤ 122) ∨
    (48 ≤ c.toNat ∧ c.toNat ≤ 57) ∨ c.toNat = 43 ∨ c.toNat = 45 ∨ c.toNat = 46 := by
  simp [schemeChar] at h
  rcases h with (((ha | hd) | hp) | hm) | hdot
  · rcases (isAlpha_iff_toNat c).mp ha with h1 | h1
    · exact Or.inl h1
    · exact Or.inr (Or.inl h1)
  · exact Or.inr (Or.inr (Or.inl ((isDigit_iff_toNat c).mp hd)))
  · subst hp; right; right; right; left; decide
  · subst hm; right; right; right; right; left; decide
  · subst hdot; right; right; right; right; right; decide

theorem toLower_schemeChar {c : Char} (h : schemeChar c = true) : schemeChar c.toLower = true := by
  by_cases hu : 65 ≤ c.toNat ∧ c.toNat ≤ 90
  · have ht := toLower_toNat_upper hu.1 hu.2
    have ha : c.toLower.isAlpha = true := by
      rw [isAlpha_iff_toNat]
      omega
    simp [schemeChar, ha]
  · rw [toLower_eq_self hu]
    exact h

/-- A scheme character is never one of the structural delimiters. -/
theorem schemeChar_ne_of_toNat {c : Char} (h : schemeChar c = true) {d : Char}
    (hd : ¬ ((65 ≤ d.toNat ∧ d.toNat ≤ 90) ∨ (97 ≤ d.toNat ∧ d.toNat ≤ 122) ∨
      (48 ≤ d.toNat ∧ d.toNat ≤ 57) ∨ d.toNat = 43 ∨ d.toNat = 45 ∨ d.toNat = 46)) :
    c ≠ d := by
  intro he
  subst he
  rcases schemeChar_cases h with h1 | h1 | h1 | h1 | h1 | h1 <;> exact hd (by tauto)

/-! ## `splitOnce` lemmas -/

theorem splitOnce_not_mem {c : Char} : ∀ {l : Str}, c ∉ l → splitOnce c l = (l, none)
  | [], _ => rfl
  | x :: t, h => by
    have hx : ¬ x = c := fun he => h (by simp [he])
    have ht : c ∉ t := fun hm => h (List.mem_cons_of_mem _ hm)
    simp [splitOnce, if_neg hx, splitOnce_not_mem ht]

theorem splitOnce_append {c : Char} {a : Str} (h : c ∉ a) (b : Str) :
    splitOnce c (a ++ c :: b) = (a, some b) := by
  induction a with
  | nil => simp [splitOnce]
  | cons x t ih =>
    have hx : ¬ x = c := fun he => h (by simp [he])
    have ht : c ∉ t := fun hm => h (List.mem_cons_of_mem _ hm)
    simp [splitOnce, if_neg hx, ih ht]

theorem splitOnce_fst_mem {c x : Char} :
    ∀ {l : Str}, x ∈ (splitOnce c l).1 → x ∈ l ∧ x ≠ c
  | [], h => by simp [splitOnce] at h
  | y :: t, h => by
    by_cases hy : y = c
    · simp [splitOnce, if_pos hy] at h
    · simp only [splitOnce, if_neg hy] at h
      rcases List.mem_cons.mp h with he | hm
      · subst he
        exact ⟨List.mem_cons_self _ _, fun he2 => hy he2⟩
      · have : x ∈ t ∧ x ≠ c := splitOnce_fst_mem hm
        exact ⟨List.mem_cons_of_mem _ this.1, this.2⟩

theorem splitOnce_snd_mem {c x : Char} :
    ∀ {l b : Str}, (splitOnce c l).2 = some b → x ∈ b → x ∈ l
  | [], _, h, _ => by simp [splitOnce] at h
  | y :: t, b, h, hx => by
    by_cases hy : y = c
    · simp [splitOnce, if_pos hy] at h
      subst h
      exact List.mem_cons_of_mem _ hx
    · simp only [splitOnce, if_neg hy] at h
      exact List.mem_cons_of_mem _ (splitOnce_snd_mem h hx)

/-! ## `takeWhile`/`dropWhile` over appends -/

theorem takeWhile_append_all {p : Char → Bool} :
    ∀ {a : Str}, (∀ x ∈ a, p x = true) → ∀ b : Str,
      (a ++ b).takeWhile p = a ++ b.takeWhile p
  | [], _, b => rfl
  | x :: t, h, b => by
    have hx : p x = true := h x (List.mem_cons_self _ _)
    simp only [List.cons_append, List.takeWhile_cons, hx, if_true]
    rw [takeWhile_append_all (fun y hy => h y (List.mem_cons_of_mem _ hy)) b]

theorem dropWhile_append_all {p : Char → Bool} :
    ∀ {a : Str}, (∀ x ∈ a, p x = true) → ∀ b : Str,
      (a ++ b).dropWhile p = b.dropWhile p
  | [], _, b => rfl
  | x :: t, h, b => by
    have hx : p x = true := h x (List.mem_cons_self _ _)
    simp only [List.cons_append, List.dropWhile_cons, hx, if_true]
    exact dropWhile_append_all (fun y hy => h y (List.mem_cons_of_mem _ hy)) b

theorem takeWhile_nil_of_head {p : Char → Bool} {c : Char} {t : Str} (h : p c = false) :
    (c :: t).takeWhile p = [] := by
  simp [List.takeWhile_cons, h]

theorem dropWhile_id_of_head {p : Char → Bool} {c : Char} {t : Str} (h : p c = false) :
    (c :: t).dropWhile p = c :: t := by
  simp [List.dropWhile_cons, h]

theorem takeWhile_eq_self_of_all {p : Char → Bool} {a : Str} (h : ∀ x ∈ a, p x = true) :
    a.takeWhile p = a := by
  have := takeWhile_append_all h []
  simpa using this

theorem dropWhile_eq_nil_of_all {p : Char → Bool} {a : Str} (h : ∀ x ∈ a, p x = true) :
    a.dropWhile p = [] := by
  have := dropWhile_append_all h []
  simpa using this

theorem dropWhile_head_false {p : Char → Bool} :
    ∀ {l : Str} {c : Char} {t : Str}, l.dropWhile p = c :: t → p c = false
  | [], _, _, h => by simp at h
  | x :: s, c, t, h => by
    by_cases hx : p x = true
    · rw [List.dropWhile_cons, if_pos hx] at h
      exact dropWhile_head_false h
    · rw [List.dropWhile_cons, if_neg hx] at h
      cases h
      simpa using hx

/-! ## Last-segment algebra (for `_splitparams`) -/

theorem dropSeg_append_lastSeg (x : Str) : dropSeg x ++ lastSeg x = x := by
  rw [dropSeg, lastSeg, ← List.reverse_append, List.takeWhile_append_dropWhile,
      List.reverse_reverse]

theorem lastSeg_no_slash (x : Str) : '/' ∉ lastSeg x := by
  intro h
  rw [lastSeg, List.mem_reverse] at h
  have := List.mem_takeWhile_imp h
  simp at this

theorem lastSeg_append {a b : Str} (hb : '/' ∉ b) : lastSeg (a ++ b) = lastSeg a ++ b := by
  rw [lastSeg, List.reverse_append]
  rw [takeWhile_append_all (fun x hx => by
    simp only [decide_eq_true_eq]
    intro he
    exact hb (he ▸ List.mem_reverse.mp hx))]
  simp [lastSeg, List.reverse_append]

theorem lastSeg_of_no_slash {x : Str} (h : '/' ∉ x) : lastSeg x = x := by
  rw [lastSeg, takeWhile_eq_self_of_all (fun c hc => by
    simp only [decide_eq_true_eq]
    intro he
    exact h (he ▸ List.mem_reverse.mp hc))]
  exact List.reverse_reverse x

theorem lastSeg_dropSeg {x : Str} (h : '/' ∈ x) : lastSeg (dropSeg x) = [] := by
  rcases hd : x.reverse.dropWhile (fun c => decide (c ≠ '/')) with _ | ⟨c, t⟩
  · exfalso
    have hx := List.takeWhile_append_dropWhile (fun c => decide (c ≠ '/')) x.reverse
    rw [hd, List.append_nil] at hx
    have : '/' ∈ x.reverse.takeWhile (fun c => decide (c ≠ '/')) := by
      rw [hx, List.mem_reverse]; exact h
    have := List.mem_takeWhile_imp this
    simp at this
  · have hc : c = '/' := by
      have := dropWhile_head_false hd
      simpa using this
    subst hc
    rw [dropSeg, hd, lastSeg]
    simp

theorem slash_mem_dropSeg {x : Str} (h : '/' ∈ x) : '/' ∈ dropSeg x := by
  by_contra hn
  have hmem : '/' ∈ dropSeg x ++ lastSeg x := by
    rw [dropSeg_append_lastSeg]; exact h
  rcases List.mem_append.mp hmem with hm | hm
  · exact hn hm
  · exact lastSeg_no_slash x hm

theorem dropSeg_of_append {a b : Str} (hb : '/' ∉ b) (ha : lastSeg a = []) :
    dropSeg (a ++ b) = a := by
  have h1 := dropSeg_append_lastSeg (a ++ b)
  rw [lastSeg_append hb, ha, List.nil_append] at h1
  exact List.append_cancel_right h1

theorem take_sub_lastSeg (x : Str) :
    x.take (x.length - (lastSeg x).length) = dropSeg x := by
  have h := dropSeg_append_lastSeg x
  have hl : x.length = (dropSeg x).length + (lastSeg x).length := by
    conv_lhs => rw [← h]
    exact List.length_append _ _
  have hlen : x.length - (lastSeg x).length = (dropSeg x).length := by omega
  have h2 : (dropSeg x ++ lastSeg x).take (dropSeg x).length = dropSeg x :=
    List.take_left _ _
  rw [h] at h2
  rw [hlen]
  exact h2

theorem mem_lastSeg {c : Char} {x : Str} (h : c ∈ lastSeg x) : c ∈ x := by
  have hm : c ∈ dropSeg x ++ lastSeg x := List.mem_append_right _ h
  rw [dropSeg_append_lastSeg] at hm
  exact hm

/-! ## `splitOnce` inversions -/

theorem splitOnce_cases (c : Char) : ∀ (l : Str),
    (∃ a b, l = a ++ c :: b ∧ c ∉ a ∧ splitOnce c l = (a, some b)) ∨
    (c ∉ l ∧ splitOnce c l = (l, none))
  | [] => Or.inr ⟨by simp, rfl⟩
  | x :: t => by
    by_cases hx : x = c
    · subst hx
      exact Or.inl ⟨[], t, rfl, by simp, by simp [splitOnce]⟩
    · rcases splitOnce_cases c t with ⟨a, b, ht, hna, he⟩ | ⟨hn, he⟩
      · refine Or.inl ⟨x :: a, b, by rw [ht]; rfl, ?_, ?_⟩
        · intro hm
          rcases List.mem_cons.mp hm with h1 | h1
          · exact hx h1.symm
          · exact hna h1
        · simp [splitOnce, if_neg hx, he]
      · refine Or.inr ⟨?_, by simp [splitOnce, if_neg hx, he]⟩
        intro hm
        rcases List.mem_cons.mp hm with h1 | h1
        · exact hx h1.symm
        · exact hn h1

theorem splitOnce_eq_some {c : Char} {l a b : Str} (h : splitOnce c l = (a, some b)) :
    l = a ++ c :: b ∧ c ∉ a := by
  rcases splitOnce_cases c l with ⟨a2, b2, ht, hna, he⟩ | ⟨hn, he⟩
  · rw [he] at h
    simp only [Prod.mk.injEq, Option.some.injEq] at h
    rcases h with ⟨h1, h2⟩
    subst h1
    subst h2
    exact ⟨ht, hna⟩
  · rw [he] at h
    simp at h

theorem splitOnce_eq_none {c : Char} {l a : Str} (h : splitOnce c l = (a, none)) :
    l = a ∧ c ∉ l := by
  rcases splitOnce_cases c l with ⟨a2, b2, ht, hna, he⟩ | ⟨hn, he⟩
  · rw [he] at h
    simp at h
  · rw [he] at h
    simp only [Prod.mk.injEq] at h
    rcases h with ⟨h1, _⟩
    subst h1
    exact ⟨rfl, hn⟩

/-! ## `splitparams` roundtrip -/

theorem splitparams_spec {X path params : Str} (h : splitparams X = (path, params)) :
    ('/' ∉ params) ∧ (';' ∉ lastSeg path) ∧
    (params ≠ [] → splitparams (path ++ [';'] ++ params) = (path, params)) ∧
    (';' ∈ path → splitparams path = (path, [])) := by
  by_cases hs : '/' ∈ X
  · rcases hso : (splitOnce ';' (lastSeg X)).2 with _ | suf
    · -- no `;` after the last `/`: no split
      rw [splitparams, if_pos hs, hso] at h
      simp only [Prod.mk.injEq] at h
      rcases h with ⟨h1, h2⟩
      subst h1
      subst h2
      have hinv := splitOnce_eq_none (Prod.ext_iff.mpr ⟨rfl, hso⟩)
      refine ⟨by simp, ?_, by simp, ?_⟩
      · rw [← hinv.1] at hinv
        exact hinv.2
      · intro _
        rw [splitparams, if_pos hs, hso]
    · -- split inside the last segment
      rw [splitparams, if_pos hs, hso] at h
      simp only [Prod.mk.injEq] at h
      have hinv := splitOnce_eq_some (Prod.ext_iff.mpr ⟨rfl, hso⟩)
      set pre := (splitOnce ';' (lastSeg X)).1 with hpredef
      have hXsplit : lastSeg X = pre ++ ';' :: suf := hinv.1
      have hpre : ';' ∉ pre := hinv.2
      have hpreSlash : '/' ∉ pre := fun hm =>
        lastSeg_no_slash X (hXsplit ▸ List.mem_append_left _ hm)
      have hsufSlash : '/' ∉ suf := fun hm =>
        lastSeg_no_slash X (hXsplit ▸ List.mem_append_right _ (List.mem_cons_of_mem _ hm))
      have hpath : path = dropSeg X ++ pre := by
        rw [← h.1, take_sub_lastSeg]
      have hparams : params = suf := h.2.symm
      subst hparams
      have hlsPath : lastSeg path = pre := by
        rw [hpath, lastSeg_append hpreSlash, lastSeg_dropSeg hs, List.nil_append]
      refine ⟨hsufSlash, by rw [hlsPath]; exact hpre, ?_, ?_⟩
      · intro _
        have hrec : path ++ [';'] ++ params = dropSeg X ++ (pre ++ ';' :: params) := by
          rw [hpath]
          simp
        have hbNoSlash : '/' ∉ pre ++ ';' :: params := by
          intro hm
          rcases List.mem_append.mp hm with hm | hm
          · exact hpreSlash hm
          · rcases List.mem_cons.mp hm with he | hm2
            · simp at he
            · exact hsufSlash hm2
        have hSlashRec : '/' ∈ path ++ [';'] ++ params := by
          rw [hrec]
          exact List.mem_append_left _ (slash_mem_dropSeg hs)
        have hlsRec : lastSeg (path ++ [';'] ++ params) = pre ++ ';' :: params := by
          rw [hrec, lastSeg_append hbNoSlash, lastSeg_dropSeg hs, List.nil_append]
        have hdsRec : dropSeg (path ++ [';'] ++ params) = dropSeg X := by
          rw [hrec]
          exact dropSeg_of_append hbNoSlash (lastSeg_dropSeg hs)
        have h1 : splitOnce ';' (lastSeg (path ++ [';'] ++ params)) = (pre, some params) := by
          rw [hlsRec]
          exact splitOnce_append hpre params
        have h2 : (splitOnce ';' (lastSeg (path ++ [';'] ++ params))).2 = some params := by
          rw [h1]
        have h3 : (splitOnce ';' (lastSeg (path ++ [';'] ++ params))).1 = pre := by
          rw [h1]
        rw [splitparams, if_pos hSlashRec, h2]
        dsimp only
        rw [take_sub_lastSeg, hdsRec, h3, ← hpath]
      · intro hsemi
        have hSlashPath : '/' ∈ path := by
          rw [hpath]
          exact List.mem_append_left _ (slash_mem_dropSeg hs)
        rw [splitparams, if_pos hSlashPath, hlsPath, splitOnce_not_mem hpre]
  · rcases hso : (splitOnce ';' X).2 with _ | suf
    · rw [splitparams, if_neg hs, hso] at h
      simp only [Prod.mk.injEq] at h
      rcases h with ⟨h1, h2⟩
      subst h1
      subst h2
      have hinv := splitOnce_eq_none (Prod.ext_iff.mpr ⟨rfl, hso⟩)
      refine ⟨by simp, ?_, by simp, ?_⟩
      · rw [← hinv.1] at hinv
        exact fun hm => hinv.2 (mem_lastSeg hm)
      · intro _
        rw [splitparams, if_neg hs, hso]
    · rw [splitparams, if_neg hs, hso] at h
      simp only [Prod.mk.injEq] at h
      have hinv := splitOnce_eq_some (Prod.ext_iff.mpr ⟨rfl, hso⟩)
      set pre := (splitOnce ';' X).1 with hpredef
      have hXsplit : X = pre ++ ';' :: suf := hinv.1
      have hpre : ';' ∉ pre := hinv.2
      have hpath : path = pre := h.1.symm
      have hparams : params = suf := h.2.symm
      subst hparams
      have hpreSlash : '/' ∉ pre := fun hm => hs (hXsplit ▸ List.mem_append_left _ hm)
      have hsufSlash : '/' ∉ params := fun hm =>
        hs (hXsplit ▸ List.mem_append_right _ (List.mem_cons_of_mem _ hm))
      subst hpath
      refine ⟨hsufSlash, by rw [lastSeg_of_no_slash hpreSlash]; exact hpre, ?_, ?_⟩
      · intro _
        have hNoSlash : '/' ∉ pre ++ [';'] ++ params := by
          intro hm
          rcases List.mem_append.mp hm with hm | hm
          · rcases List.mem_append.mp hm with hm2 | hm2
            · exact hpreSlash hm2
            · simp at hm2
          · exact hsufSlash hm
        have heq : pre ++ [';'] ++ params = pre ++ ';' :: params := by simp
        rw [splitparams, if_neg hNoSlash, heq]
        have hsoApp := splitOnce_append hpre params
        rw [hsoApp]
      · intro hsemi
        exact absurd hsemi hpre

/-! ## `splitAtChar`, `splitScheme`, `splitNetloc` lemmas -/

theorem splitAtChar_not_mem {c : Char} {l : Str} (h : c ∉ l) : splitAtChar c l = (l, []) := by
  rw [splitAtChar, splitOnce_not_mem h]

theorem splitAtChar_append {c : Char} {a : Str} (h : c ∉ a) (b : Str) :
    splitAtChar c (a ++ c :: b) = (a, b) := by
  rw [splitAtChar, splitOnce_append h]

theorem splitAtChar_fst_mem {c x : Char} {l : Str} (h : x ∈ (splitAtChar c l).1) :
    x ∈ l ∧ x ≠ c := by
  rcases splitOnce_cases c l with ⟨a, b, ht, hna, he⟩ | ⟨hn, he⟩
  · rw [splitAtChar, he] at h
    dsimp only at h
    exact ⟨ht ▸ List.mem_append_left _ h, fun he2 => hna (he2 ▸ h)⟩
  · rw [splitAtChar, he] at h
    dsimp only at h
    exact ⟨h, fun he2 => hn (he2 ▸ h)⟩

theorem splitAtChar_snd_mem {c x : Char} {l : Str} (h : x ∈ (splitAtChar c l).2) :
    x ∈ l := by
  rcases splitOnce_cases c l with ⟨a, b, ht, hna, he⟩ | ⟨hn, he⟩
  · rw [splitAtChar, he] at h
    dsimp only at h
    exact ht ▸ List.mem_append_right _ (List.mem_cons_of_mem _ h)
  · rw [splitAtChar, he] at h
    dsimp only at h
    simp at h

theorem splitScheme_of_scheme {s : Str} (rest d : Str) (hnil : s ≠ [])
    (hhead : headIsAlpha s = true) (hall : s.all schemeChar = true)
    (hlow : s.map Char.toLower = s) :
    splitScheme d (s ++ ':' :: rest) = (s, rest) := by
  have hcolon : ':' ∉ s := by
    intro hm
    have h1 := List.all_eq_true.mp hall _ hm
    exact absurd h1 (by decide)
  rw [splitScheme, splitOnce_append hcolon]
  dsimp only
  rw [if_pos ⟨hnil, hhead, hall⟩, hlow]

theorem splitScheme_fst_wf (d u : Str) :
    (splitScheme d u).1 = d ∨
    ((splitScheme d u).1 ≠ [] ∧ headIsAlpha (splitScheme d u).1 = true ∧
     (splitScheme d u).1.all schemeChar = true ∧
     (splitScheme d u).1.map Char.toLower = (splitScheme d u).1) := by
  rcases splitOnce_cases ':' u with ⟨a, b, ht, hna, he⟩ | ⟨hn, he⟩
  · rw [splitScheme, he]
    dsimp only
    by_cases hc : a ≠ [] ∧ headIsAlpha a = true ∧ a.all schemeChar = true
    · rw [if_pos hc]
      right
      refine ⟨by simpa using hc.1, ?_, ?_, ?_⟩
      · rcases a with _ | ⟨c0, t0⟩
        · exact absurd rfl hc.1
        · simpa [headIsAlpha] using toLower_isAlpha (by simpa [headIsAlpha] using hc.2.1)
      · rw [List.all_eq_true]
        intro x hx
        rcases List.mem_map.mp hx with ⟨y, hy, hxy⟩
        exact hxy ▸ toLower_schemeChar (List.all_eq_true.mp hc.2.2 _ hy)
      · rw [List.map_map]
        apply List.map_congr_left
        intro x _
        exact toLower_idem x
    · rw [if_neg hc]
      left
      rfl
  · rw [splitScheme, he]
    dsimp only
    left
    rfl

theorem splitScheme_snd_mem {x : Char} {d u : Str} (h : x ∈ (splitScheme d u).2) :
    x ∈ u := by
  rcases splitOnce_cases ':' u with ⟨a, b, ht, hna, he⟩ | ⟨hn, he⟩
  · rw [splitScheme, he] at h
    dsimp only at h
    by_cases hc : a ≠ [] ∧ headIsAlpha a = true ∧ a.all schemeChar = true
    · rw [if_pos hc] at h
      exact ht ▸ List.mem_append_right _ (List.mem_cons_of_mem _ h)
    · rw [if_neg hc] at h
      exact h
  · rw [splitScheme, he] at h
    dsimp only at h
    exact h

theorem splitNetloc_fst_nd {rest : Str} : ∀ c ∈ (splitNetloc rest).1, netlocDelim c = false := by
  intro c hc
  rw [splitNetloc] at hc
  by_cases ht : rest.take 2 = ['/', '/']
  · rw [if_pos ht] at hc
    have := List.mem_takeWhile_imp hc
    simpa using this
  · rw [if_neg ht] at hc
    simp at hc

theorem splitNetloc_fst_mem {x : Char} {rest : Str} (h : x ∈ (splitNetloc rest).1) :
    x ∈ rest := by
  rw [splitNetloc] at h
  by_cases ht : rest.take 2 = ['/', '/']
  · rw [if_pos ht] at h
    exact List.drop_subset 2 rest ((List.takeWhile_sublist _).subset h)
  · rw [if_neg ht] at h
    simp at h

theorem splitNetloc_snd_mem {x : Char} {rest : Str} (h : x ∈ (splitNetloc rest).2) :
    x ∈ rest := by
  rw [splitNetloc] at h
  by_cases ht : rest.take 2 = ['/', '/']
  · rw [if_pos ht] at h
    exact List.drop_subset 2 rest ((List.dropWhile_sublist _).subset h)
  · rw [if_neg ht] at h
    exact h

theorem splitNetloc_snd_head {rest : Str} (h : (splitNetloc rest).1 ≠ []) :
    (splitNetloc rest).2 = [] ∨ ∃ t, (splitNetloc rest).2 = '/' :: t ∨
      (splitNetloc rest).2 = '?' :: t ∨ (splitNetloc rest).2 = '#' :: t := by
  rw [splitNetloc] at h ⊢
  by_cases ht : rest.take 2 = ['/', '/']
  · rw [if_pos ht] at h ⊢
    rcases hd : (rest.drop 2).dropWhile (fun c => !netlocDelim c) with _ | ⟨c, t⟩
    · exact Or.inl rfl
    · right
      refine ⟨t, ?_⟩
      have hc := dropWhile_head_false hd
      have : netlocDelim c = true := by simpa using hc
      simp only [netlocDelim, Bool.or_eq_true, beq_iff_eq] at this
      rcases this with (h1 | h1) | h1
      · exact Or.inl (by rw [h1])
      · exact Or.inr (Or.inl (by rw [h1]))
      · exact Or.inr (Or.inr (by rw [h1]))
  · rw [if_neg ht] at h
    exact absurd rfl h

theorem splitNetloc_eval {n rest' : Str} (hn : ∀ c ∈ n, netlocDelim c = false)
    (hrest : rest' = [] ∨ ∃ c t, rest' = c :: t ∧ netlocDelim c = true) :
    splitNetloc ('/' :: '/' :: (n ++ rest')) = (n, rest') := by
  have htk : ('/' :: '/' :: (n ++ rest')).take 2 = ['/', '/'] := rfl
  rw [splitNetloc, if_pos htk]
  have hdrop : ('/' :: '/' :: (n ++ rest')).drop 2 = n ++ rest' := rfl
  rw [hdrop]
  have hall : ∀ c ∈ n, (!netlocDelim c) = true := by
    intro c hc
    simp [hn c hc]
  have htail_t : rest'.takeWhile (fun c => !netlocDelim c) = [] := by
    rcases hrest with h1 | ⟨c, t, h1, h2⟩
    · rw [h1]
      rfl
    · rw [h1]
      exact takeWhile_nil_of_head (by simp [h2])
  have htail_d : rest'.dropWhile (fun c => !netlocDelim c) = rest' := by
    rcases hrest with h1 | ⟨c, t, h1, h2⟩
    · rw [h1]
      rfl
    · rw [h1]
      exact dropWhile_id_of_head (by simp [h2])
  rw [takeWhile_append_all hall, dropWhile_append_all hall, htail_t, htail_d,
      List.append_nil]

/-! ## Well-formedness of parse results -/

/-- Characters surviving the sanitizing pass of `urlsplit`. -/
abbrev cleanChar (c : Char) : Prop := ¬ (c = '\t' ∨ c = '\r' ∨ c = '\n')

theorem mem_dropTabCrLf {c : Char} {l : Str} (h : c ∈ dropTabCrLf l) :
    c ∈ l ∧ cleanChar c := by
  rw [dropTabCrLf] at h
  have := List.mem_filter.mp h
  refine ⟨this.1, ?_⟩
  have h2 := this.2
  simp only [decide_eq_true_eq] at h2
  exact h2

theorem dropTabCrLf_eq_self {l : Str} (h : ∀ c ∈ l, cleanChar c) :
    dropTabCrLf l = l := by
  rw [dropTabCrLf]
  apply List.filter_eq_self.mpr
  intro a ha
  simp only [decide_eq_true_eq]
  exact h a ha

theorem toLower_cleanChar {c : Char} (h : cleanChar c) : cleanChar c.toLower := by
  by_cases hu : 65 ≤ c.toNat ∧ c.toNat ≤ 90
  · have ht := toLower_toNat_upper hu.1 hu.2
    intro hc
    have h9 : ('\t' : Char).toNat = 9 := by decide
    have h13 : ('\r' : Char).toNat = 13 := by decide
    have h10 : ('\n' : Char).toNat = 10 := by decide
    rcases hc with hc | hc | hc <;> rw [hc] at ht
    · rw [h9] at ht
      omega
    · rw [h13] at ht
      omega
    · rw [h10] at ht
      omega
  · rw [toLower_eq_self hu]
    exact h

theorem splitAtChar_nil (c : Char) : splitAtChar c [] = ([], []) := rfl

theorem splitAtChar_fst_self (c : Char) (t : Str) : (splitAtChar c (c :: t)).1 = [] := by
  simp [splitAtChar, splitOnce]

theorem splitOnce_cons_ne {c c0 : Char} (t : Str) (h : c0 ≠ c) :
    splitOnce c (c0 :: t) = (c0 :: (splitOnce c t).1, (splitOnce c t).2) := by
  simp [splitOnce, if_neg h]

theorem splitAtChar_fst_cons {c c0 : Char} (t : Str) (h : c0 ≠ c) :
    (splitAtChar c (c0 :: t)).1 = c0 :: (splitAtChar c t).1 := by
  rcases splitOnce_cases c t with ⟨a, b, ht, hna, he⟩ | ⟨hn, he⟩
  · have h1 : splitOnce c (c0 :: t) = (c0 :: a, some b) := by
      rw [splitOnce_cons_ne t h, he]
    rw [splitAtChar, splitAtChar, h1, he]
  · have h1 : splitOnce c (c0 :: t) = (c0 :: t, none) := by
      rw [splitOnce_cons_ne t h, he]
    rw [splitAtChar, splitAtChar, h1, he]

theorem splitparams_fst_mem {x : Char} {p : Str} (h : x ∈ (splitparams p).1) : x ∈ p := by
  rw [splitparams] at h
  by_cases hs : '/' ∈ p
  · rw [if_pos hs] at h
    rcases hso : (splitOnce ';' (lastSeg p)).2 with _ | suf <;> rw [hso] at h <;> dsimp only at h
    · exact h
    · rcases List.mem_append.mp h with hm | hm
      · exact List.take_subset _ _ hm
      · have hinv := splitOnce_eq_some (Prod.ext_iff.mpr ⟨rfl, hso⟩)
        exact mem_lastSeg (hinv.1 ▸ List.mem_append_left _ hm)
  · rw [if_neg hs] at h
    rcases hso : (splitOnce ';' p).2 with _ | suf <;> rw [hso] at h <;> dsimp only at h
    · exact h
    · have hinv := splitOnce_eq_some (Prod.ext_iff.mpr ⟨rfl, hso⟩)
      exact hinv.1 ▸ List.mem_append_left _ h

theorem splitparams_snd_mem {x : Char} {p : Str} (h : x ∈ (splitparams p).2) : x ∈ p := by
  rw [splitparams] at h
  by_cases hs : '/' ∈ p
  · rw [if_pos hs] at h
    rcases hso : (splitOnce ';' (lastSeg p)).2 with _ | suf <;> rw [hso] at h <;> dsimp only at h
    · simp at h
    · have hinv := splitOnce_eq_some (Prod.ext_iff.mpr ⟨rfl, hso⟩)
      exact mem_lastSeg (hinv.1 ▸ List.mem_append_right _ (List.mem_cons_of_mem _ h))
  · rw [if_neg hs] at h
    rcases hso : (splitOnce ';' p).2 with _ | suf <;> rw [hso] at h <;> dsimp only at h
    · simp at h
    · have hinv := splitOnce_eq_some (Prod.ext_iff.mpr ⟨rfl, hso⟩)
      exact hinv.1 ▸ List.mem_append_right _ (List.mem_cons_of_mem _ h)

theorem splitparams_fst_append (p : Str) : ∃ t, (splitparams p).1 ++ t = p := by
  rw [splitparams]
  by_cases hs : '/' ∈ p
  · rw [if_pos hs]
    rcases hso : (splitOnce ';' (lastSeg p)).2 with _ | suf <;> dsimp only
    · exact ⟨[], List.append_nil _⟩
    · have hinv := splitOnce_eq_some (Prod.ext_iff.mpr ⟨rfl, hso⟩)
      refine ⟨';' :: suf, ?_⟩
      rw [take_sub_lastSeg, List.append_assoc, ← hinv.1, dropSeg_append_lastSeg]
  · rw [if_neg hs]
    rcases hso : (splitOnce ';' p).2 with _ | suf <;> dsimp only
    · exact ⟨[], List.append_nil _⟩
    · have hinv := splitOnce_eq_some (Prod.ext_iff.mpr ⟨rfl, hso⟩)
      exact ⟨';' :: suf, hinv.1.symm⟩

theorem splitparams_fst_take1 (p : Str) (h : (splitparams p).1 ≠ []) :
    (splitparams p).1.take 1 = p.take 1 := by
  rcases splitparams_fst_append p with ⟨t, ht⟩
  rcases hpp : (splitparams p).1 with _ | ⟨c0, t0⟩
  · exact absurd hpp h
  · conv_rhs => rw [← ht]
    rw [hpp]
    rfl

theorem splitparams_fst_ne_nil {p : Str} (h : '/' ∈ p) : (splitparams p).1 ≠ [] := by
  rw [splitparams, if_pos h]
  rcases hso : (splitOnce ';' (lastSeg p)).2 with _ | suf <;> dsimp only
  · exact List.ne_nil_of_mem h
  · intro he
    rw [take_sub_lastSeg] at he
    have h2 := slash_mem_dropSeg h
    rw [(List.append_eq_nil.mp he).1] at h2
    simp at h2

/-- The well-formedness facts that hold of every successful
`urlparse url []` result and drive the re-parse argument. -/
structure ParseWF (p : ParseResult) : Prop where
  scheme_wf : p.scheme = [] ∨ (p.scheme ≠ [] ∧ headIsAlpha p.scheme = true ∧
      p.scheme.all schemeChar = true ∧ p.scheme.map Char.toLower = p.scheme)
  netloc_nd : ∀ c ∈ p.netloc, netlocDelim c = false
  netloc_br : ¬ (('[' ∈ p.netloc ∧ ']' ∉ p.netloc) ∨ (']' ∈ p.netloc ∧ '[' ∉ p.netloc))
  path_nh : '#' ∉ p.path
  path_nq : '?' ∉ p.path
  params_nh : '#' ∉ p.params
  params_nq : '?' ∉ p.params
  query_nh : '#' ∉ p.query
  clean_netloc : ∀ c ∈ p.netloc, cleanChar c
  clean_path : ∀ c ∈ p.path, cleanChar c
  clean_params : ∀ c ∈ p.params, cleanChar c
  clean_query : ∀ c ∈ p.query, cleanChar c
  path_slash : p.netloc ≠ [] → p.path = [] ∨ p.path.take 1 = ['/']
  params_nil_path : p.netloc ≠ [] → p.params ≠ [] → p.path ≠ []
  resplit : p.scheme ∈ usesParams ∧ ';' ∈ recombParams p →
      splitparams (recombParams p) = (p.path, p.params)
  resplit_no : ¬ (p.scheme ∈ usesParams ∧ ';' ∈ recombParams p) → p.params = []

theorem urlparse_wf {url : Str} {p : ParseResult} (h : urlparse url [] = some p) :
    ParseWF p := by
  rcases hsp : urlsplit url [] with _ | r
  · rw [urlparse, hsp] at h
    simp at h
  · rw [urlparse, hsp] at h
    dsimp only at h
    -- first extract the split-level facts for r
    have hbundle : r.scheme = (splitScheme [] (dropTabCrLf url)).1 ∧
        r.netloc = (splitNetloc (splitScheme [] (dropTabCrLf url)).2).1 ∧
        r.path = (splitAtChar '?' (splitAtChar '#'
          (splitNetloc (splitScheme [] (dropTabCrLf url)).2).2).1).1 ∧
        r.query = (splitAtChar '?' (splitAtChar '#'
          (splitNetloc (splitScheme [] (dropTabCrLf url)).2).2).1).2 ∧
        ¬ (('[' ∈ r.netloc ∧ ']' ∉ r.netloc) ∨ (']' ∈ r.netloc ∧ '[' ∉ r.netloc)) := by
      rw [urlsplit] at hsp
      dsimp only at hsp
      by_cases hbr : ('[' ∈ (splitNetloc (splitScheme (dropTabCrLf []) (dropTabCrLf url)).2).1 ∧
            ']' ∉ (splitNetloc (splitScheme (dropTabCrLf []) (dropTabCrLf url)).2).1) ∨
          (']' ∈ (splitNetloc (splitScheme (dropTabCrLf []) (dropTabCrLf url)).2).1 ∧
            '[' ∉ (splitNetloc (splitScheme (dropTabCrLf []) (dropTabCrLf url)).2).1)
      · rw [if_pos hbr] at hsp
        simp at hsp
      · rw [if_neg hbr] at hsp
        simp only [Option.some.injEq] at hsp
        rw [← hsp]
        exact ⟨rfl, rfl, rfl, rfl, by exact hbr⟩
    rcases hbundle with ⟨hsch, hnet, hpath, hquery, hbr⟩
    -- mem facts for the raw path and query
    have hpath_mem : ∀ x ∈ r.path, x ∈ dropTabCrLf url ∧ x ≠ '#' ∧ x ≠ '?' := by
      intro x hx
      rw [hpath] at hx
      have h1 := splitAtChar_fst_mem hx
      have h2 := splitAtChar_fst_mem h1.1
      have h3 := splitNetloc_snd_mem h2.1
      have h4 := splitScheme_snd_mem h3
      exact ⟨h4, h2.2, h1.2⟩
    have hquery_mem : ∀ x ∈ r.query, x ∈ dropTabCrLf url ∧ x ≠ '#' := by
      intro x hx
      rw [hquery] at hx
      have h1 := splitAtChar_snd_mem hx
      have h2 := splitAtChar_fst_mem h1
      have h3 := splitNetloc_snd_mem h2.1
      have h4 := splitScheme_snd_mem h3
      exact ⟨h4, h2.2⟩
    have hnet_mem : ∀ x ∈ r.netloc, x ∈ dropTabCrLf url := by
      intro x hx
      rw [hnet] at hx
      exact splitScheme_snd_mem (splitNetloc_fst_mem hx)
    have hscheme_wf : r.scheme = [] ∨ (r.scheme ≠ [] ∧ headIsAlpha r.scheme = true ∧
        r.scheme.all schemeChar = true ∧ r.scheme.map Char.toLower = r.scheme) := by
      rw [hsch]
      have := splitScheme_fst_wf [] (dropTabCrLf url)
      rcases this with h1 | h1
      · exact Or.inl h1
      · exact Or.inr h1
    have hnet_nd : ∀ c ∈ r.netloc, netlocDelim c = false := by
      intro c hc
      rw [hnet] at hc
      exact splitNetloc_fst_nd c hc
    have hpath_slash : r.netloc ≠ [] → r.path = [] ∨ r.path.take 1 = ['/'] := by
      intro hne
      rw [hnet] at hne
      have hh := splitNetloc_snd_head hne
      rw [hpath]
      rcases hh with h1 | ⟨t, h1 | h1 | h1⟩ <;> rw [h1]
      · simp [splitAtChar_nil]
      · rw [splitAtChar_fst_cons t (by decide)]
        rw [splitAtChar_fst_cons _ (by decide)]
        right
        rfl
      · rw [splitAtChar_fst_cons t (by decide), splitAtChar_fst_self]
        left
        rfl
      · rw [splitAtChar_fst_self]
        simp [splitAtChar_nil]
    -- now the parse level
    by_cases hg : r.scheme ∈ usesParams ∧ ';' ∈ r.path
    · rw [if_pos hg] at h
      simp only [Option.some.injEq] at h
      subst h
      have hspec := splitparams_spec
        (show splitparams r.path =
          ((splitparams r.path).1, (splitparams r.path).2) from rfl)
      refine ⟨hscheme_wf, hnet_nd, by exact hbr, ?_, ?_, ?_, ?_, ?_, ?_, ?_, ?_, ?_,
        ?_, ?_, ?_, ?_⟩
      · intro hm
        exact (hpath_mem _ (splitparams_fst_mem hm)).2.1 rfl
      · intro hm
        exact (hpath_mem _ (splitparams_fst_mem hm)).2.2 rfl
      · intro hm
        exact (hpath_mem _ (splitparams_snd_mem hm)).2.1 rfl
      · intro hm
        exact (hpath_mem _ (splitparams_snd_mem hm)).2.2 rfl
      · intro hm
        exact (hquery_mem _ hm).2 rfl
      · intro c hc
        exact (mem_dropTabCrLf (hnet_mem c hc)).2
      · intro c hc
        exact (mem_dropTabCrLf (hpath_mem c (splitparams_fst_mem hc)).1).2
      · intro c hc
        exact (mem_dropTabCrLf (hpath_mem c (splitparams_snd_mem hc)).1).2
      · intro c hc
        exact (mem_dropTabCrLf (hquery_mem c hc).1).2
      · intro hne
        by_cases hpp : (splitparams r.path).1 = []
        · exact Or.inl hpp
        · right
          have h4 := splitparams_fst_take1 r.path hpp
          rcases hpath_slash hne with h1 | h1
          · exfalso
            apply hpp
            rw [h1] at h4
            rw [h1]
            rcases List.take_eq_nil_iff.mp h4 with h5 | h5
            · simp at h5
            · exact h5
          · show List.take 1 (splitparams r.path).1 = ['/']
            rw [h4]
            exact h1
      · intro hne hprm hppnil
        have hsemi := hg.2
        have hpne : r.path ≠ [] := by
          intro he
          rw [he] at hsemi
          simp at hsemi
        rcases hpath_slash hne with h1 | h1
        · exact hpne h1
        · have hsl : '/' ∈ r.path := by
            rcases hp : r.path with _ | ⟨c0, t0⟩
            · exact absurd hp hpne
            · have hc0 : [c0] = ['/'] := by
                rw [← h1, hp]
                rfl
              simp only [List.cons.injEq] at hc0
              rw [hc0.1]
              exact List.mem_cons_self _ _
          exact splitparams_fst_ne_nil hsl hppnil
      · intro hyp
        by_cases hprm : (splitparams r.path).2 ≠ []
        · have hr2 : recombParams ⟨r.scheme, r.netloc, (splitparams r.path).1,
              (splitparams r.path).2, r.query, r.fragment⟩ =
              (splitparams r.path).1 ++ [';'] ++ (splitparams r.path).2 := by
            rw [recombParams, if_pos hprm]
          rw [hr2] at hyp ⊢
          exact hspec.2.2.1 hprm
        · have hprm2 : (splitparams r.path).2 = [] := not_ne_iff.mp hprm
          have hr2 : recombParams ⟨r.scheme, r.netloc, (splitparams r.path).1,
              (splitparams r.path).2, r.query, r.fragment⟩ =
              (splitparams r.path).1 := by
            rw [recombParams, if_neg hprm]
          rw [hr2] at hyp ⊢
          have h1 := hspec.2.2.2 hyp.2
          rw [h1]
          show ((splitparams r.path).1, []) =
            ((splitparams r.path).1, (splitparams r.path).2)
          rw [hprm2]
      · intro hyp
        by_contra hprm
        apply hyp
        refine ⟨hg.1, ?_⟩
        have hr2 : recombParams ⟨r.scheme, r.netloc, (splitparams r.path).1,
            (splitparams r.path).2, r.query, r.fragment⟩ =
            (splitparams r.path).1 ++ [';'] ++ (splitparams r.path).2 := by
          rw [recombParams, if_pos hprm]
        rw [hr2]
        simp
    · rw [if_neg hg] at h
      simp only [Option.some.injEq] at h
      subst h
      have hrec : recombParams ⟨r.scheme, r.netloc, r.path, [], r.query, r.fragment⟩ =
          r.path := by
        rw [recombParams]
        dsimp only
        rw [if_neg (by simp)]
      refine ⟨hscheme_wf, hnet_nd, by exact hbr, ?_, ?_, ?_, ?_, ?_, ?_, ?_, ?_, ?_,
        ?_, ?_, ?_, ?_⟩
      · intro hm
        exact (hpath_mem _ hm).2.1 rfl
      · intro hm
        exact (hpath_mem _ hm).2.2 rfl
      · intro hm
        simp at hm
      · intro hm
        simp at hm
      · intro hm
        exact (hquery_mem _ hm).2 rfl
      · intro c hc
        exact (mem_dropTabCrLf (hnet_mem c hc)).2
      · intro c hc
        exact (mem_dropTabCrLf (hpath_mem c hc).1).2
      · intro c hc
        simp at hc
      · intro c hc
        exact (mem_dropTabCrLf (hquery_mem c hc).1).2
      · exact hpath_slash
      · intro _ hprm
        simp at hprm
      · intro hyp
        rw [hrec] at hyp
        exact absurd hyp hg
      · intro _
        rfl

/-! ## Re-parsing an unparsed result (the fixed-point argument) -/

theorem cleanChar_of_schemeChar {c : Char} (h : schemeChar c = true) : cleanChar c := by
  intro hc
  have hcases := schemeChar_cases h
  rcases hc with hc | hc | hc <;> rw [hc] at hcases <;> revert hcases <;> decide

theorem take_one_append {a : Str} (b : Str) (h : a ≠ []) :
    (a ++ b).take 1 = a.take 1 := by
  rcases a with _ | ⟨c, t⟩
  · exact absurd rfl h
  · rfl

/-- Re-parsing the serialization of a well-formed parse result with a
nonempty authority yields the result back, for any default scheme. -/
theorem urlparse_reparse {q : ParseResult} (wf : ParseWF q) (hs : q.scheme ≠ [])
    (hn : q.netloc ≠ []) (d : Str) :
    urlparse (urlunparse ⟨q.scheme, q.netloc, q.path, q.params, q.query, []⟩) d =
      some ⟨q.scheme, q.netloc, q.path, q.params, q.query, []⟩ := by
  rcases wf.scheme_wf with hcon | ⟨_, hhead, hall, hlow⟩
  · exact absurd hcon hs
  have hrq : recombParams ⟨q.scheme, q.netloc, q.path, q.params, q.query, []⟩ =
      recombParams q := rfl
  -- the combined path is empty or starts with a slash
  have hP1 : recombParams q = [] ∨ (recombParams q).take 1 = ['/'] := by
    rw [recombParams]
    by_cases hprm : q.params ≠ []
    · rw [if_pos hprm]
      have hpne := wf.params_nil_path hn hprm
      rcases wf.path_slash hn with h1 | h1
      · exact absurd h1 hpne
      · right
        rw [List.append_assoc, take_one_append _ hpne]
        exact h1
    · rw [if_neg hprm]
      exact wf.path_slash hn
  -- characters of the combined path
  have hPmem : ∀ c ∈ recombParams q, c ≠ '#' ∧ c ≠ '?' ∧ cleanChar c := by
    intro c hc
    rw [recombParams] at hc
    by_cases hprm : q.params ≠ []
    · rw [if_pos hprm] at hc
      rcases List.mem_append.mp hc with hm | hm
      · rcases List.mem_append.mp hm with hm2 | hm2
        · exact ⟨fun he => wf.path_nh (he ▸ hm2), fun he => wf.path_nq (he ▸ hm2),
            wf.clean_path c hm2⟩
        · have : c = ';' := by simpa using hm2
          subst this
          exact ⟨by decide, by decide, by decide⟩
      · exact ⟨fun he => wf.params_nh (he ▸ hm), fun he => wf.params_nq (he ▸ hm),
          wf.clean_params c hm⟩
    · rw [if_neg hprm] at hc
      exact ⟨fun he => wf.path_nh (he ▸ hc), fun he => wf.path_nq (he ▸ hc),
        wf.clean_path c hc⟩
  have hndB : ∀ c ∈ q.netloc, (netlocDelim c = false) := wf.netloc_nd
  -- by cases on the query
  by_cases hq : q.query = []
  · -- no query part
    have hinner : ¬(recombParams q ≠ [] ∧ (recombParams q).take 1 ≠ ['/']) := by
      intro hcontra
      rcases hP1 with h1 | h1
      · exact hcontra.1 h1
      · exact hcontra.2 h1
    have hu : urlunparse ⟨q.scheme, q.netloc, q.path, q.params, q.query, []⟩ =
        q.scheme ++ ':' :: ('/' :: '/' :: (q.netloc ++ recombParams q)) := by
      rw [urlunparse, urlunsplit, hrq]
      dsimp only
      rw [if_pos (Or.inl hn), if_neg hinner, if_pos hs,
          if_neg (show ¬(([] : Str) ≠ []) by simp),
          if_neg (show ¬(q.query ≠ []) by simpa using hq)]
      simp
    have hcleanu : ∀ c ∈ q.scheme ++ ':' :: ('/' :: '/' :: (q.netloc ++ recombParams q)),
        cleanChar c := by
      intro c hc
      rcases List.mem_append.mp hc with hm | hm
      · exact cleanChar_of_schemeChar (List.all_eq_true.mp hall c hm)
      · rcases List.mem_cons.mp hm with he | hm2
        · subst he
          decide
        · rcases List.mem_cons.mp hm2 with he | hm3
          · subst he
            decide
          · rcases List.mem_cons.mp hm3 with he | hm4
            · subst he
              decide
            · rcases List.mem_append.mp hm4 with h5 | h5
              · exact wf.clean_netloc c h5
              · exact (hPmem c h5).2.2
    have htail : recombParams q = [] ∨
        ∃ c t, recombParams q = c :: t ∧ netlocDelim c = true := by
      rcases hP1 with h1 | h1
      · exact Or.inl h1
      · rcases hP : recombParams q with _ | ⟨c0, t0⟩
        · exact Or.inl rfl
        · right
          refine ⟨c0, t0, rfl, ?_⟩
          rw [hP] at h1
          have : c0 = '/' := by simpa using h1
          rw [this]
          rfl
    have hnohash : '#' ∉ recombParams q := fun hm => (hPmem _ hm).1 rfl
    have hnoq : '?' ∉ recombParams q := fun hm => (hPmem _ hm).2.1 rfl
    have hkey : urlsplit (q.scheme ++ ':' :: ('/' :: '/' :: (q.netloc ++ recombParams q))) d =
        some ⟨q.scheme, q.netloc, recombParams q, [], []⟩ := by
      rw [urlsplit]
      dsimp only
      rw [dropTabCrLf_eq_self hcleanu]
      rw [splitScheme_of_scheme _ _ hs hhead hall hlow]
      dsimp only
      rw [splitNetloc_eval hndB htail]
      dsimp only
      rw [if_neg (by exact wf.netloc_br)]
      rw [splitAtChar_not_mem hnohash]
      dsimp only
      rw [splitAtChar_not_mem hnoq]
    rw [hu, urlparse, hkey]
    dsimp only
    by_cases hg : q.scheme ∈ usesParams ∧ ';' ∈ recombParams q
    · rw [if_pos hg]
      rw [wf.resplit hg]
      rw [hq]
    · rw [if_neg hg]
      have hprm := wf.resplit_no hg
      have hPeq : recombParams q = q.path := by
        rw [recombParams, if_neg (by simpa using hprm)]
      rw [hPeq, hq, hprm]
  · -- nonempty query
    have hinner : ¬(recombParams q ≠ [] ∧ (recombParams q).take 1 ≠ ['/']) := by
      intro hcontra
      rcases hP1 with h1 | h1
      · exact hcontra.1 h1
      · exact hcontra.2 h1
    have hu : urlunparse ⟨q.scheme, q.netloc, q.path, q.params, q.query, []⟩ =
        q.scheme ++ ':' :: ('/' :: '/' :: (q.netloc ++ (recombParams q ++ '?' :: q.query))) := by
      rw [urlunparse, urlunsplit, hrq]
      dsimp only
      rw [if_pos (Or.inl hn), if_neg hinner, if_pos hs,
          if_neg (show ¬(([] : Str) ≠ []) by simp),
          if_pos (show q.query ≠ [] from hq)]
      simp
    have hcleanu : ∀ c ∈ q.scheme ++ ':' ::
        ('/' :: '/' :: (q.netloc ++ (recombParams q ++ '?' :: q.query))), cleanChar c := by
      intro c hc
      rcases List.mem_append.mp hc with hm | hm
      · exact cleanChar_of_schemeChar (List.all_eq_true.mp hall c hm)
      · rcases List.mem_cons.mp hm with he | hm2
        · subst he
          decide
        · rcases List.mem_cons.mp hm2 with he | hm3
          · subst he
            decide
          · rcases List.mem_cons.mp hm3 with he | hm4
            · subst he
              decide
            · rcases List.mem_append.mp hm4 with h5 | h5
              · exact wf.clean_netloc c h5
              · rcases List.mem_append.mp h5 with h6 | h6
                · exact (hPmem c h6).2.2
                · rcases List.mem_cons.mp h6 with he | h7
                  · subst he
                    decide
                  · exact wf.clean_query c h7
    have htail : recombParams q ++ '?' :: q.query = [] ∨
        ∃ c t, recombParams q ++ '?' :: q.query = c :: t ∧ netlocDelim c = true := by
      right
      rcases hP : recombParams q with _ | ⟨c0, t0⟩
      · exact ⟨'?', q.query, rfl, rfl⟩
      · refine ⟨c0, t0 ++ '?' :: q.query, rfl, ?_⟩
        rcases hP1 with h1 | h1
        · rw [hP] at h1
          simp at h1
        · rw [hP] at h1
          have : c0 = '/' := by simpa using h1
          rw [this]
          rfl
    have hnohash : '#' ∉ recombParams q ++ '?' :: q.query := by
      intro hm
      rcases List.mem_append.mp hm with h5 | h5
      · exact (hPmem _ h5).1 rfl
      · rcases List.mem_cons.mp h5 with he | h6
        · simp at he
        · exact wf.query_nh h6
    have hnoqP : '?' ∉ recombParams q := fun hm => (hPmem _ hm).2.1 rfl
    have hkey : urlsplit (q.scheme ++ ':' ::
        ('/' :: '/' :: (q.netloc ++ (recombParams q ++ '?' :: q.query)))) d =
        some ⟨q.scheme, q.netloc, recombParams q, q.query, []⟩ := by
      rw [urlsplit]
      dsimp only
      rw [dropTabCrLf_eq_self hcleanu]
      rw [splitScheme_of_scheme _ _ hs hhead hall hlow]
      dsimp only
      rw [splitNetloc_eval hndB htail]
      dsimp only
      rw [if_neg (by exact wf.netloc_br)]
      rw [splitAtChar_not_mem hnohash]
      dsimp only
      rw [splitAtChar_append hnoqP q.query]
    rw [hu, urlparse, hkey]
    dsimp only
    by_cases hg : q.scheme ∈ usesParams ∧ ';' ∈ recombParams q
    · rw [if_pos hg]
      rw [wf.resplit hg]
    · rw [if_neg hg]
      have hprm := wf.resplit_no hg
      have hPeq : recombParams q = q.path := by
        rw [recombParams, if_neg (by simpa using hprm)]
      rw [hPeq, hprm]

/-! ## Helper lemmas for `normalize_url` -/

/-- A scheme with the `"http"` prefix is nonempty. -/
theorem http_prefix_ne_nil {s : Str} (h : "http".toList.isPrefixOf s = true) :
    s ≠ [] := by
  intro hc
  rw [hc] at h
  exact absurd h (by decide)

/-- The only `uses_relative` schemes starting with `"http"` are `http`
and `https`, and both are in `uses_netloc`. -/
theorem usesRelative_http_netloc : ∀ s ∈ usesRelative,
    "http".toList.isPrefixOf s = true → s ∈ usesNetloc := by decide

/-- A serialization with a nonempty scheme is nonempty. -/
theorem urlunsplit_ne_nil (s n p q f : Str) (hs : s ≠ []) :
    urlunsplit s n p q f ≠ [] := by
  unfold urlunsplit
  dsimp only
  split <;> split <;> split <;> simp_all

/-- With an empty fragment and hash-free components, `urlunsplit`
produces a hash-free string. -/
theorem urlunsplit_no_hash (s n p q : Str) (hs : '#' ∉ s) (hn : '#' ∉ n)
    (hp : '#' ∉ p) (hq : '#' ∉ q) : '#' ∉ urlunsplit s n p q [] := by
  unfold urlunsplit
  dsimp only
  rw [if_neg (show ¬(([] : Str) ≠ []) by simp)]
  split <;> split <;> (try split) <;> (try split) <;>
    simp_all [List.mem_append]

/-- Inversion of a successful `normalize_url` run: the link was
nonempty, the join and the parse succeeded, the scheme starts with
`"http"`, and the result is the fragment-free serialization. -/
theorem normalize_url_inv {base link r : Str}
    (h : normalize_url base link = some r) :
    link ≠ [] ∧ ∃ joined p, urljoin base link = some joined ∧
      urlparse joined [] = some p ∧
      "http".toList.isPrefixOf p.scheme = true ∧
      r = urlunparse ⟨p.scheme, p.netloc, p.path, p.params, p.query, []⟩ := by
  by_cases hl : link = []
  · rw [normalize_url, if_pos hl] at h
    exact absurd h (by simp)
  · rw [normalize_url, if_neg hl] at h
    refine ⟨hl, ?_⟩
    rcases hj : urljoin base link with _ | joined
    · rw [hj] at h
      exact absurd h (by simp)
    rw [hj] at h
    dsimp only at h
    rcases hp : urlparse joined [] with _ | p
    · rw [hp] at h
      exact absurd h (by simp)
    rw [hp] at h
    dsimp only at h
    by_cases hpre : "http".toList.isPrefixOf p.scheme = true
    · rw [if_pos hpre] at h
      exact ⟨joined, p, rfl, hp, hpre, (Option.some.inj h).symm⟩
    · rw [if_neg hpre] at h
      exact absurd h (by simp)

/-- When the base is nonempty and the join succeeded, the base parsed. -/
theorem urljoin_base_parse {base url j : Str} (hb : base ≠ []) (hu : url ≠ [])
    (h : urljoin base url = some j) : ∃ b, urlparse base [] = some b := by
  rw [urljoin, if_neg hb, if_neg hu] at h
  rcases hpb : urlparse base [] with _ | b
  · rw [hpb] at h
    exact absurd h (by simp)
  · exact ⟨b, rfl⟩

/-! ## Claim C6 -/

/-- Counterexample to claim C6: `normalize_url` accepts the non-HTTP(S)
scheme `httpx` (the code checks `startswith("http")`, not membership in
\x7bhttp, https\x7d), and it is not idempotent: `http://////y` normalizes to
`http:////y`, which re-normalizes to the different string `http://y`. -/
theorem normalize_url_c6_counterexample :
    (normalize_url [] "httpx://host/p".toList = some "httpx://host/p".toList) ∧
    (normalize_url [] "http://////y".toList = some "http:////y".toList ∧
     normalize_url [] "http:////y".toList = some "http://y".toList ∧
     "http:////y".toList ≠ "http://y".toList) := by decide

/-- Claim C6 (amended): every non-null `normalize_url` output is
fragment-free; `normalize_url` fails closed (returns null) whenever the
resolved URL's scheme does not start with `"http"`; and it is idempotent
on every output whose resolved URL parses with a nonempty netloc. -/
theorem normalize_url_amended :
    (∀ base link r, normalize_url base link = some r → '#' ∉ r) ∧
    (∀ base link joined p, urljoin base link = some joined →
       urlparse joined [] = some p →
       "http".toList.isPrefixOf p.scheme = false →
       normalize_url base link = none) ∧
    (∀ base link r joined p, normalize_url base link = some r →
       urljoin base link = some joined → urlparse joined [] = some p →
       p.netloc ≠ [] → normalize_url base r = some r) := by
  refine ⟨?_, ?_, ?_⟩
  · -- outputs carry no fragment marker
    intro base link r h
    obtain ⟨hl, joined, p, hj, hp, hpre, hr⟩ := normalize_url_inv h
    have wf := urlparse_wf hp
    subst hr
    show '#' ∉ urlunsplit p.scheme p.netloc (recombParams p) p.query []
    apply urlunsplit_no_hash
    · intro hmem
      rcases wf.scheme_wf with h0 | ⟨_, _, hall, _⟩
      · rw [h0] at hmem
        exact absurd hmem (by simp)
      · exact absurd (List.all_eq_true.mp hall _ hmem) (by decide)
    · intro hmem
      exact absurd (wf.netloc_nd _ hmem) (by decide)
    · intro hmem
      rw [recombParams] at hmem
      by_cases hprm : p.params = []
      · rw [if_neg (by simpa using hprm)] at hmem
        exact wf.path_nh hmem
      · rw [if_pos hprm] at hmem
        simp only [List.append_assoc, List.mem_append, List.mem_singleton] at hmem
        rcases hmem with hmem | hmem | hmem
        · exact wf.path_nh hmem
        · exact absurd hmem (by decide)
        · exact wf.params_nh hmem
    · exact wf.query_nh
  · -- failing closed on schemes without the http prefix
    intro base link joined p hj hp hpre
    by_cases hl : link = []
    · rw [normalize_url, if_pos hl]
    · rw [normalize_url, if_neg hl, hj]
      dsimp only
      rw [hp]
      dsimp only
      rw [if_neg (by rw [hpre]; exact Bool.false_ne_true)]
  · -- idempotence on outputs with a nonempty authority
    intro base link r joined p hnorm hj hp hn
    obtain ⟨hl, joined2, p2, hj2, hp2, hpre2, hr⟩ := normalize_url_inv hnorm
    rw [hj] at hj2
    obtain rfl : joined = joined2 := Option.some.inj hj2
    rw [hp] at hp2
    obtain rfl : p = p2 := Option.some.inj hp2
    have wf := urlparse_wf hp
    have hs : p.scheme ≠ [] := http_prefix_ne_nil hpre2
    have hrep0 := urlparse_reparse wf hs hn []
    rw [← hr] at hrep0
    have hrne : r ≠ [] := by
      rw [hr]
      exact urlunsplit_ne_nil _ _ _ _ _ hs
    have hjoin : urljoin base r = some r := by
      by_cases hb : base = []
      · rw [urljoin, if_pos hb]
      · obtain ⟨b, hpb⟩ := urljoin_base_parse hb hl hj
        have hrepb := urlparse_reparse wf hs hn b.scheme
        rw [← hr] at hrepb
        rw [urljoin, if_neg hb, if_neg hrne, hpb]
        dsimp only
        rw [hrepb]
        dsimp only
        by_cases hbr : p.scheme ≠ b.scheme ∨ p.scheme ∉ usesRelative
        · rw [if_pos hbr]
        · rw [if_neg hbr]
          push_neg at hbr
          rw [if_pos ⟨usesRelative_http_netloc _ hbr.2 hpre2, hn⟩]
          rw [← hr]
    rw [normalize_url, if_neg hrne, hjoin]
    dsimp only
    rw [hrep0]
    dsimp only
    rw [if_pos hpre2, ← hr]

/-- Witness for the amended C6 theorem at concrete inputs: a fragment
link loses its fragment, an `ftp` link is rejected, and a resolved
`https` URL with authority `e.com` is a fixed point. -/
theorem normalize_url_amended_witness :
    ('#' ∉ "https://e.com/a?q".toList) ∧
    (normalize_url [] "ftp://h/x".toList = none) ∧
    (normalize_url [] "https://e.com/a".toList =
      some "https://e.com/a".toList) :=
  ⟨normalize_url_amended.1 [] "https://e.com/a?q#f".toList
     "https://e.com/a?q".toList (by decide),
   normalize_url_amended.2.1 [] "ftp://h/x".toList "ftp://h/x".toList
     ⟨"ftp".toList, "h".toList, "/x".toList, [], [], []⟩
     (by decide) (by decide) (by decide),
   normalize_url_amended.2.2 [] "https://e.com/a#f".toList
     "https://e.com/a".toList "https://e.com/a#f".toList
     ⟨"https".toList, "e.com".toList, "/a".toList, [], [], "f".toList⟩
     (by decide) (by decide) (by decide) (by decide)⟩

/-! ## Crawl model (`schema_crawler.py` `fetch_text`, `discover_sitemaps`,
`parse_sitemap_for_urls`, `crawl`)

Network interaction is modeled by an environment: `get` maps a URL to a
response (`none` models a `requests.RequestException`), `links` is the
`iterate_links` oracle, and `apiError` tells whether the LLM call for a
page raises an unrecoverable error (the `raise api_error` path). Each
issued HTTP request is recorded as an event, as is each completed page
(manifest write plus counter increment). -/

/-- Python's substring test `needle in hay`. -/
def strIn (needle : Str) : Str → Bool
  | [] => decide (needle = [])
  | c :: rest => needle.isPrefixOf (c :: rest) || strIn needle rest

structure Resp where
  status : Nat
  contentType : Str
  body : Str
  deriving DecidableEq

structure Env where
  get : Str → Option Resp
  links : Str → Str → List Str
  apiError : Str → Bool

structure CrawlCfg where
  base_url : Str
  sitemap_url : Option Str
  max_pages : Nat
  rate_limit : ℚ
  allow_subdomains : Bool
  api_key : Str

inductive Event where
  | getRobots : Str → Event
  | getSitemap : Str → Event
  | getPage : Str → Event
  | savedPage : Str → Str → Event
  deriving DecidableEq

structure FetchOut where
  text : Option Str
  slept : Bool
  deriving DecidableEq

/-- `fetch_text` (schema_crawler.py lines 102-127). The sleep happens
after a response is obtained and before any status/content-type check;
the `except` path returns `None` without sleeping. `slept` records
whether `time.sleep` ran. -/
def fetch_text (env : Env) (url : Str) (rate_limit : ℚ)
    (allowed_content_types : List Str) : FetchOut :=
  match env.get url with
  | none => ⟨none, false⟩
  | some resp =>
    let slept := decide (0 < rate_limit)
    if 400 ≤ resp.status then ⟨none, slept⟩
    else if allowed_content_types ≠ [] ∧
        ¬ allowed_content_types.any (fun t => strIn t resp.contentType) then
      ⟨none, slept⟩
    else ⟨some resp.body, slept⟩

/-- The `Sitemap:` directives of a robots.txt body, in file order
(schema_crawler.py lines 139-143). -/
def robotsSitemapLines (robotsText : Str) : List Str :=
  (splitlines robotsText).filterMap (fun line =>
    if "sitemap:".toList.isPrefixOf (line.map Char.toLower) then
      match (splitOnce ':' line).2 with
      | some rest => some (pyStrip rest)
      | none => none
    else none)

/-- First-seen-order de-duplication (schema_crawler.py lines 146-152). -/
def dedupGo (seen : List Str) : List Str → List Str
  | [] => []
  | x :: rest => if x ∈ seen then dedupGo seen rest
      else x :: dedupGo (x :: seen) rest

def dedupPreserve (l : List Str) : List Str := dedupGo [] l

/-- The robots.txt `Sitemap:` directives obtained from the network: only
a 200 response contributes, and a request exception contributes nothing
(schema_crawler.py lines 136-144). -/
def robotsDirectives (env : Env) (ru : Str) : List Str :=
  match env.get ru with
  | some resp => if resp.status = 200 then robotsSitemapLines resp.body else []
  | none => []

/-- `discover_sitemaps` (schema_crawler.py lines 130-153): the two
default candidates first, then the robots.txt directives, de-duplicated
preserving first-seen order. A `none` result models a `ValueError`
escaping from `urljoin`. The returned events record the robots.txt
request. -/
def discover_sitemaps (env : Env) (base_url : Str) :
    Option (List Str × List Event) :=
  match urljoin base_url "/sitemap.xml".toList,
      urljoin base_url "/sitemap_index.xml".toList,
      urljoin base_url "/robots.txt".toList with
  | some c1, some c2, some ru =>
    some (dedupPreserve ([c1, c2] ++ robotsDirectives env ru),
          [Event.getRobots ru])
  | _, _, _ => none

/-- `parse_sitemap_for_urls` (schema_crawler.py lines 156-161): scan for
case-insensitive `<loc>...</loc>` pairs whose content is nonempty and
`<`-free, and collect the stripped contents. -/
def parse_sitemap_go : Nat → Str → List Str
  | 0, _ => []
  | _, [] => []
  | fuel + 1, c :: rest =>
    if "<loc>".toList.isPrefixOf ((c :: rest).map Char.toLower) then
      let seg := (rest.drop 4).takeWhile (· ≠ '<')
      let rest2 := (rest.drop 4).drop seg.length
      if seg ≠ [] ∧ "</loc>".toList.isPrefixOf (rest2.map Char.toLower) then
        pyStrip seg :: parse_sitemap_go fuel (rest2.drop 6)
      else parse_sitemap_go fuel rest
    else parse_sitemap_go fuel rest

def parse_sitemap_for_urls (xml : Str) : List Str :=
  parse_sitemap_go xml.length xml

/-- The content types accepted for sitemap fetches in `crawl`. -/
def xmlContentTypes : List Str :=
  ["application/xml", "text/xml", "application/rss+xml", "text/plain"].map
    String.toList

/-- The manifest key computed from a page URL (schema_crawler.py lines
1120-1129): the parsed path, defaulted to `/`, `/`-prefixed, and with
trailing slashes stripped except for the root. `none` models a
`ValueError` from `urlparse`. -/
def manifestPath (url : Str) : Option Str :=
  match urlparse url [] with
  | none => none
  | some pu =>
    let path0 := if pu.path = [] then ['/'] else pu.path
    let path1 := if path0.take 1 ≠ ['/'] then '/' :: path0 else path0
    some (if path1 ≠ ['/'] ∧ path1.getLast? = some '/'
      then (path1.reverse.dropWhile (· = '/')).reverse
      else path1)

/-- The per-link enqueue filter (schema_crawler.py lines 1157-1161):
`link not in visited and (allow_subdomains or urlparse(link).hostname ==
origin_host)`, with Python short-circuit order; `none` models a
`ValueError` from `urlparse` on a link. -/
def enqueueLinks (cfg : CrawlCfg) (origin_host : Str) (visited : List Str) :
    List Str → Option (List Str)
  | [] => some []
  | link :: rest =>
    if link ∈ visited then enqueueLinks cfg origin_host visited rest
    else if cfg.allow_subdomains then
      (enqueueLinks cfg origin_host visited rest).map (link :: ·)
    else
      match urlparse link [] with
      | none => none
      | some pl =>
        if hostnameOf pl.netloc = some origin_host then
          (enqueueLinks cfg origin_host visited rest).map (link :: ·)
        else enqueueLinks cfg origin_host visited rest

structure CrawlSt where
  queue : List Str
  visited : List Str
  count : Nat
  manifest : List Str
  events : List Event
  deriving DecidableEq

/-- The result of one iteration of the main loop: `stop` ends the run
(loop condition false, or an exception escaping `crawl`), `cont` goes
back around. -/
inductive StepRes where
  | stop : CrawlSt → StepRes
  | cont : CrawlSt → StepRes
  deriving DecidableEq

def StepRes.state : StepRes → CrawlSt
  | .stop s => s
  | .cont s => s

/-- One iteration of the `while queue and count < max_pages` loop of
`crawl` (schema_crawler.py lines 681-1169). Skips (visited, out of
scope, no HTML) continue without counting; a completed page records a
`savedPage` event, bumps the counter, writes the manifest key and
enqueues the filtered links. Escaping exceptions (LLM `raise`,
`ValueError` from `urlparse`) stop the run with the state reached. -/
def crawlStep (cfg : CrawlCfg) (env : Env) (origin_host : Str)
    (st : CrawlSt) : StepRes :=
  match st.queue with
  | [] => .stop st
  | url :: rest =>
    if cfg.max_pages ≤ st.count then .stop st
    else if url ∈ st.visited then
      .cont ⟨rest, st.visited, st.count, st.manifest, st.events⟩
    else
      let visited1 := url :: st.visited
      if ¬ cfg.allow_subdomains ∧ ¬ same_registrable_domain url cfg.base_url then
        .cont ⟨rest, visited1, st.count, st.manifest, st.events⟩
      else
        let events1 := st.events ++ [Event.getPage url]
        match (fetch_text env url cfg.rate_limit ["text/html".toList]).text with
        | none => .cont ⟨rest, visited1, st.count, st.manifest, events1⟩
        | some html =>
          if html = [] then
            .cont ⟨rest, visited1, st.count, st.manifest, events1⟩
          else if env.apiError url then
            .stop ⟨rest, visited1, st.count, st.manifest, events1⟩
          else
            match manifestPath url with
            | none => .stop ⟨rest, visited1, st.count, st.manifest, events1⟩
            | some path =>
              let manifest1 :=
                if path ∈ st.manifest then st.manifest else st.manifest ++ [path]
              let events2 := events1 ++ [Event.savedPage url path]
              match enqueueLinks cfg origin_host visited1 (env.links html url) with
              | none => .stop ⟨rest, visited1, st.count + 1, manifest1, events2⟩
              | some newLinks =>
                .cont ⟨rest ++ newLinks, visited1, st.count + 1, manifest1, events2⟩

/-- The main loop of `crawl`, iterated with explicit fuel. -/
def crawlLoop (cfg : CrawlCfg) (env : Env) (origin_host : Str) :
    Nat → CrawlSt → CrawlSt
  | 0, st => st
  | fuel + 1, st =>
    match crawlStep cfg env origin_host st with
    | .stop st2 => st2
    | .cont st2 => crawlLoop cfg env origin_host fuel st2

/-- Fetch one child sitemap of a sitemap index and extend the
seed/event accumulator (schema_crawler.py lines 639-646). -/
def childStep (env : Env) (rl : ℚ) (acc : List Str × List Event)
    (child : Str) : List Str × List Event :=
  match (fetch_text env child rl xmlContentTypes).text with
  | none => (acc.1, acc.2 ++ [Event.getSitemap child])
  | some ctext =>
    if ctext ≠ [] ∧ strIn "<urlset".toList ctext then
      (acc.1 ++ parse_sitemap_for_urls ctext,
       acc.2 ++ [Event.getSitemap child])
    else (acc.1, acc.2 ++ [Event.getSitemap child])

/-- One sitemap candidate of the seed phase (schema_crawler.py lines
633-654): fetch it; on a sitemap index fetch every child and collect the
`<urlset>` children's URLs; on a plain `<urlset>` collect its URLs. -/
def fetchSitemapSeeds (env : Env) (rl : ℚ) (sm : Str) : List Str × List Event :=
  match (fetch_text env sm rl xmlContentTypes).text with
  | none => ([], [Event.getSitemap sm])
  | some text =>
    if text = [] then ([], [Event.getSitemap sm])
    else if strIn "<sitemapindex".toList text then
      (parse_sitemap_for_urls text).foldl (childStep env rl)
        ([], [Event.getSitemap sm])
    else if strIn "<urlset".toList text then
      (parse_sitemap_for_urls text, [Event.getSitemap sm])
    else ([], [Event.getSitemap sm])

structure SeedOut where
  seeds : List Str
  events : List Event
  aborted : Bool

/-- Process one discovered sitemap candidate of the seed phase
(schema_crawler.py lines 632-654). -/
def seedStep (env : Env) (rl : ℚ) (acc : List Str × List Event)
    (sm : Str) : List Str × List Event :=
  let s := fetchSitemapSeeds env rl sm
  (acc.1 ++ s.1, acc.2 ++ s.2)

/-- The seed phase of `crawl` (schema_crawler.py lines 606-657): with an
explicit sitemap URL only that candidate is fetched; otherwise the
discovered candidates are processed in order. `aborted` models a
`ValueError` escaping from `discover_sitemaps`. -/
def seedPhase (cfg : CrawlCfg) (env : Env) : SeedOut :=
  match cfg.sitemap_url with
  | some sm =>
    let r := fetchSitemapSeeds env cfg.rate_limit sm
    ⟨r.1, r.2, false⟩
  | none =>
    match discover_sitemaps env cfg.base_url with
    | none => ⟨[], [], true⟩
    | some (maps, ev0) =>
      let r := maps.foldl (seedStep env cfg.rate_limit) (([] : List Str), ev0)
      ⟨r.1, r.2, false⟩

/-- `crawl` (schema_crawler.py lines 565-1189): seed phase, base-URL
fallback, origin host computation, the API-key check of lines 676-679
(which returns from the function), then the main loop. -/
def crawl (cfg : CrawlCfg) (env : Env) (fuel : Nat) : CrawlSt :=
  let s := seedPhase cfg env
  if s.aborted then ⟨[], [], 0, [], s.events⟩
  else
    let seeds := if s.seeds = [] then [cfg.base_url] else s.seeds
    match urlparse cfg.base_url [] with
    | none => ⟨seeds, [], 0, [], s.events⟩
    | some pb =>
      let origin_host := (hostnameOf pb.netloc).getD []
      if cfg.api_key = [] then ⟨seeds, [], 0, [], s.events⟩
      else crawlLoop cfg env origin_host fuel ⟨seeds, [], 0, [], s.events⟩

/-- The page-fetch URLs of an event trace, in order. -/
def pageFetches (evs : List Event) : List Str :=
  evs.filterMap (fun e => match e with | Event.getPage u => some u | _ => none)

/-- The completed pages (manifest writes) of an event trace, in order. -/
def savedPages (evs : List Event) : List (Str × Str) :=
  evs.filterMap (fun e =>
    match e with | Event.savedPage u p => some (u, p) | _ => none)

/-! ## Invariants of the crawl loop -/

theorem filterMap_nil_of {α β : Type} (f : α → Option β) :
    ∀ l : List α, (∀ e ∈ l, f e = none) → l.filterMap f = []
  | [], _ => rfl
  | x :: t, h => by
    rw [List.filterMap_cons, h x (by simp)]
    exact filterMap_nil_of f t (fun e he => h e (by simp [he]))

theorem pageFetches_append (a b : List Event) :
    pageFetches (a ++ b) = pageFetches a ++ pageFetches b := by
  simp [pageFetches]

theorem savedPages_append (a b : List Event) :
    savedPages (a ++ b) = savedPages a ++ savedPages b := by
  simp [savedPages]

/-- The invariant maintained by each iteration of the main loop: page
fetches are pairwise distinct and all recorded as visited, the counter
respects the budget and counts exactly the completed pages. -/
def LoopInv (cfg : CrawlCfg) (st : CrawlSt) : Prop :=
  (pageFetches st.events).Nodup ∧
  (∀ u ∈ pageFetches st.events, u ∈ st.visited) ∧
  st.count ≤ cfg.max_pages ∧
  st.count = (savedPages st.events).length

theorem crawlStep_inv {cfg : CrawlCfg} (env : Env) (origin_host : Str)
    {st : CrawlSt} (h : LoopInv cfg st) :
    LoopInv cfg (crawlStep cfg env origin_host st).state := by
  obtain ⟨h1, h2, h3, h4⟩ := h
  rcases hq : st.queue with _ | ⟨url, rest⟩
  · simp only [crawlStep, hq]
    exact ⟨h1, h2, h3, h4⟩
  simp only [crawlStep, hq]
  by_cases hmax : cfg.max_pages ≤ st.count
  · rw [if_pos hmax]
    exact ⟨h1, h2, h3, h4⟩
  rw [if_neg hmax]
  by_cases hvis : url ∈ st.visited
  · rw [if_pos hvis]
    exact ⟨h1, h2, h3, h4⟩
  rw [if_neg hvis]
  have h2c : ∀ u ∈ pageFetches st.events, u ∈ url :: st.visited :=
    fun u hu => List.mem_cons_of_mem _ (h2 u hu)
  by_cases hscope : ¬ cfg.allow_subdomains ∧
      ¬ same_registrable_domain url cfg.base_url
  · rw [if_pos hscope]
    exact ⟨h1, h2c, h3, h4⟩
  rw [if_neg hscope]
  have hnp : url ∉ pageFetches st.events := fun hc => hvis (h2 url hc)
  have hpf : (pageFetches (st.events ++ [Event.getPage url])).Nodup := by
    rw [pageFetches_append]
    have hone : pageFetches [Event.getPage url] = [url] := rfl
    rw [hone, List.nodup_append]
    refine ⟨h1, List.nodup_singleton url, ?_⟩
    intro a ha hb
    rw [List.mem_singleton] at hb
    subst hb
    exact hnp ha
  have hmem : ∀ u ∈ pageFetches (st.events ++ [Event.getPage url]),
      u ∈ url :: st.visited := by
    intro u hu
    rw [pageFetches_append] at hu
    rcases List.mem_append.mp hu with hu | hu
    · exact List.mem_cons_of_mem _ (h2 u hu)
    · have hone : pageFetches [Event.getPage url] = [url] := rfl
      rw [hone, List.mem_singleton] at hu
      exact hu ▸ List.mem_cons_self url st.visited
  have hsv : savedPages (st.events ++ [Event.getPage url]) =
      savedPages st.events := by
    rw [savedPages_append]
    have hone : savedPages [Event.getPage url] = [] := rfl
    rw [hone, List.append_nil]
  have hc4 : st.count =
      (savedPages (st.events ++ [Event.getPage url])).length :=
    h4.trans (congrArg List.length hsv.symm)
  rcases hft : (fetch_text env url cfg.rate_limit ["text/html".toList]).text
    with _ | html
  · exact ⟨hpf, hmem, h3, hc4⟩
  dsimp only
  by_cases hhtml : html = []
  · rw [if_pos hhtml]
    exact ⟨hpf, hmem, h3, hc4⟩
  rw [if_neg hhtml]
  by_cases hapi : env.apiError url = true
  · rw [if_pos hapi]
    exact ⟨hpf, hmem, h3, hc4⟩
  rw [if_neg hapi]
  rcases hmp : manifestPath url with _ | path
  · exact ⟨hpf, hmem, h3, hc4⟩
  have hsv2 : savedPages (st.events ++ [Event.getPage url] ++
      [Event.savedPage url path]) = savedPages st.events ++ [(url, path)] := by
    rw [savedPages_append, hsv]
    have hone : savedPages [Event.savedPage url path] = [(url, path)] := rfl
    rw [hone]
  have hpf2 : pageFetches (st.events ++ [Event.getPage url] ++
      [Event.savedPage url path]) =
      pageFetches (st.events ++ [Event.getPage url]) := by
    rw [pageFetches_append]
    have hone : pageFetches [Event.savedPage url path] = [] := rfl
    rw [hone, List.append_nil]
  have hcount : st.count + 1 ≤ cfg.max_pages := by omega
  have hlen : st.count + 1 = (savedPages (st.events ++ [Event.getPage url] ++
      [Event.savedPage url path])).length := by
    rw [hsv2, List.length_append, ← h4]
    rfl
  rcases hel : enqueueLinks cfg origin_host (url :: st.visited)
      (env.links html url) with _ | newLinks
  · exact ⟨hpf2.symm ▸ hpf, fun u hu => hmem u (hpf2 ▸ hu), hcount, hlen⟩
  · exact ⟨hpf2.symm ▸ hpf, fun u hu => hmem u (hpf2 ▸ hu), hcount, hlen⟩

theorem crawlLoop_inv {cfg : CrawlCfg} (env : Env) (origin_host : Str)
    (fuel : Nat) {st : CrawlSt} (h : LoopInv cfg st) :
    LoopInv cfg (crawlLoop cfg env origin_host fuel st) := by
  induction fuel generalizing st with
  | zero => exact h
  | succ n ih =>
    rw [crawlLoop]
    have hstep := crawlStep_inv env origin_host h
    rcases hs : crawlStep cfg env origin_host st with st2 | st2
    · rw [hs] at hstep
      exact hstep
    · rw [hs] at hstep
      exact ih hstep

theorem childStep_events (env : Env) (rl : ℚ) (acc : List Str × List Event)
    (child : Str) :
    (childStep env rl acc child).2 = acc.2 ++ [Event.getSitemap child] := by
  rw [childStep]
  rcases (fetch_text env child rl xmlContentTypes).text with _ | ctext
  · rfl
  · dsimp only
    split <;> rfl

theorem foldl_childStep_events (env : Env) (rl : ℚ) (children : List Str)
    (acc : List Str × List Event) :
    (children.foldl (childStep env rl) acc).2 =
      acc.2 ++ children.map Event.getSitemap := by
  induction children generalizing acc with
  | nil => simp
  | cons child rest ih =>
    rw [List.foldl_cons, ih, childStep_events]
    simp

theorem fetchSitemapSeeds_events (env : Env) (rl : ℚ) (sm : Str) :
    ∀ e ∈ (fetchSitemapSeeds env rl sm).2, ∃ u, e = Event.getSitemap u := by
  intro e he
  rw [fetchSitemapSeeds] at he
  rcases hft : (fetch_text env sm rl xmlContentTypes).text with _ | text <;>
    rw [hft] at he <;> dsimp only at he
  · simp only [List.mem_singleton] at he
    exact ⟨sm, he⟩
  · by_cases h0 : text = []
    · rw [if_pos h0] at he
      simp only [List.mem_singleton] at he
      exact ⟨sm, he⟩
    rw [if_neg h0] at he
    by_cases hidx : strIn "<sitemapindex".toList text = true
    · rw [if_pos hidx, foldl_childStep_events] at he
      rcases List.mem_append.mp he with he | he
      · simp only [List.mem_singleton] at he
        exact ⟨sm, he⟩
      · obtain ⟨u, _, rfl⟩ := List.mem_map.mp he
        exact ⟨u, rfl⟩
    rw [if_neg hidx] at he
    by_cases hset : strIn "<urlset".toList text = true
    · rw [if_pos hset] at he
      simp only [List.mem_singleton] at he
      exact ⟨sm, he⟩
    · rw [if_neg hset] at he
      simp only [List.mem_singleton] at he
      exact ⟨sm, he⟩

theorem foldl_seedStep_events (env : Env) (rl : ℚ) (maps : List Str)
    (acc : List Str × List Event) (P : Event → Prop)
    (hacc : ∀ e ∈ acc.2, P e) (hP : ∀ u, P (Event.getSitemap u)) :
    ∀ e ∈ (maps.foldl (seedStep env rl) acc).2, P e := by
  induction maps generalizing acc with
  | nil => exact hacc
  | cons sm rest ih =>
    rw [List.foldl_cons]
    apply ih
    intro e he
    rw [seedStep] at he
    dsimp only at he
    rcases List.mem_append.mp he with he | he
    · exact hacc e he
    · obtain ⟨u, rfl⟩ := fetchSitemapSeeds_events env rl sm e he
      exact hP u

/-- The events returned by `discover_sitemaps` are robots.txt
requests. -/
theorem discover_sitemaps_events (env : Env) (b : Str) (maps : List Str)
    (evs : List Event) (h : discover_sitemaps env b = some (maps, evs)) :
    ∀ e ∈ evs, ∃ u, e = Event.getRobots u := by
  rw [discover_sitemaps] at h
  rcases hj1 : urljoin b "/sitemap.xml".toList with _ | c1 <;>
    rcases hj2 : urljoin b "/sitemap_index.xml".toList with _ | c2 <;>
    rcases hj3 : urljoin b "/robots.txt".toList with _ | ru <;>
    rw [hj1, hj2, hj3] at h <;> dsimp only at h
  all_goals try exact Option.noConfusion h
  have hp := Option.some.inj h
  rw [Prod.ext_iff] at hp
  obtain ⟨-, hev⟩ := hp
  subst hev
  intro e he
  simp only [List.mem_singleton] at he
  exact ⟨ru, he⟩

/-- Every event of the seed phase is a robots.txt or sitemap request:
no page is fetched and none is saved before the main loop starts. -/
theorem seedPhase_events (cfg : CrawlCfg) (env : Env) :
    ∀ e ∈ (seedPhase cfg env).events,
      (∃ u, e = Event.getRobots u) ∨ (∃ u, e = Event.getSitemap u) := by
  intro e he
  rw [seedPhase] at he
  rcases hsm : cfg.sitemap_url with _ | sm <;> rw [hsm] at he <;>
    dsimp only at he
  · rcases hd : discover_sitemaps env cfg.base_url with _ | ⟨maps, ev0⟩ <;>
      rw [hd] at he <;> dsimp only at he
    · simp at he
    · refine foldl_seedStep_events env cfg.rate_limit maps ([], ev0)
        (fun ev => (∃ u, ev = Event.getRobots u) ∨
          (∃ u, ev = Event.getSitemap u)) ?_
        (fun u => Or.inr ⟨u, rfl⟩) e he
      intro e2 he2
      exact Or.inl (discover_sitemaps_events env cfg.base_url maps ev0 hd e2 he2)
  · obtain ⟨u, rfl⟩ := fetchSitemapSeeds_events env cfg.rate_limit sm e he
    exact Or.inr ⟨u, rfl⟩

theorem seedPhase_no_pages (cfg : CrawlCfg) (env : Env) :
    pageFetches (seedPhase cfg env).events = [] ∧
    savedPages (seedPhase cfg env).events = [] := by
  constructor
  · apply filterMap_nil_of
    intro e he
    rcases seedPhase_events cfg env e he with ⟨u, rfl⟩ | ⟨u, rfl⟩ <;> rfl
  · apply filterMap_nil_of
    intro e he
    rcases seedPhase_events cfg env e he with ⟨u, rfl⟩ | ⟨u, rfl⟩ <;> rfl

theorem loopInv_init (cfg : CrawlCfg) (q : List Str) (evs : List Event)
    (h1 : pageFetches evs = []) (h2 : savedPages evs = []) :
    LoopInv cfg ⟨q, [], 0, [], evs⟩ := by
  refine ⟨?_, ?_, ?_, ?_⟩
  · rw [h1]
    exact List.nodup_nil
  · intro u hu
    rw [h1] at hu
    exact absurd hu (List.not_mem_nil u)
  · exact Nat.zero_le _
  · rw [h2]
    rfl

/-- The loop invariant holds of the final state of every crawl run. -/
theorem crawl_inv (cfg : CrawlCfg) (env : Env) (fuel : Nat) :
    LoopInv cfg (crawl cfg env fuel) := by
  obtain ⟨hp, hs⟩ := seedPhase_no_pages cfg env
  unfold crawl
  dsimp only
  split
  · exact loopInv_init cfg _ _ hp hs
  · split
    · exact loopInv_init cfg _ _ hp hs
    · split
      · exact loopInv_init cfg _ _ hp hs
      · exact crawlLoop_inv env _ fuel (loopInv_init cfg _ _ hp hs)

/-! ## De-duplication lemmas -/

theorem dedupGo_sub : ∀ (l seen : List Str), ∀ x ∈ dedupGo seen l,
    x ∈ l ∧ x ∉ seen
  | [], _, x, hx => absurd hx (List.not_mem_nil x)
  | y :: t, seen, x, hx => by
    rw [dedupGo] at hx
    by_cases hy : y ∈ seen
    · rw [if_pos hy] at hx
      obtain ⟨m1, m2⟩ := dedupGo_sub t seen x hx
      exact ⟨List.mem_cons_of_mem _ m1, m2⟩
    · rw [if_neg hy] at hx
      rcases List.mem_cons.mp hx with rfl | hx
      · exact ⟨List.mem_cons_self _ _, hy⟩
      · obtain ⟨m1, m2⟩ := dedupGo_sub t (y :: seen) x hx
        exact ⟨List.mem_cons_of_mem _ m1,
          fun hc => m2 (List.mem_cons_of_mem _ hc)⟩

theorem dedupGo_nodup : ∀ (l seen : List Str), (dedupGo seen l).Nodup
  | [], _ => List.nodup_nil
  | y :: t, seen => by
    rw [dedupGo]
    by_cases hy : y ∈ seen
    · rw [if_pos hy]
      exact dedupGo_nodup t seen
    · rw [if_neg hy]
      refine List.nodup_cons.mpr ⟨?_, dedupGo_nodup t (y :: seen)⟩
      intro hc
      exact (dedupGo_sub t (y :: seen) y hc).2 (List.mem_cons_self _ _)

theorem mem_dedupGo : ∀ (l seen : List Str) (x : Str),
    x ∈ l → x ∉ seen → x ∈ dedupGo seen l
  | [], _, x, hx, _ => absurd hx (List.not_mem_nil x)
  | y :: t, seen, x, hx, hs => by
    rw [dedupGo]
    by_cases hy : y ∈ seen
    · rw [if_pos hy]
      rcases List.mem_cons.mp hx with rfl | hx
      · exact absurd hy hs
      · exact mem_dedupGo t seen x hx hs
    · rw [if_neg hy]
      rcases List.mem_cons.mp hx with rfl | hx
      · exact List.mem_cons_self _ _
      · by_cases hxy : x = y
        · subst hxy
          exact List.mem_cons_self _ _
        · refine List.mem_cons_of_mem _ (mem_dedupGo t (y :: seen) x hx ?_)
          intro hc
          rcases List.mem_cons.mp hc with h | h
          · exact hxy h
          · exact hs h

theorem dedupPreserve_nodup (l : List Str) : (dedupPreserve l).Nodup :=
  dedupGo_nodup l []

theorem mem_dedupPreserve (l : List Str) (x : Str) :
    x ∈ dedupPreserve l ↔ x ∈ l := by
  constructor
  · intro h
    exact (dedupGo_sub l [] x h).1
  · intro h
    exact mem_dedupGo l [] x h (List.not_mem_nil x)

/-! ## Claim C8 -/

/-- The network environment of the C8 scenario: robots.txt lists a new
sitemap and one that duplicates the default candidate. -/
def envC8 : Env :=
  ⟨fun u =>
    if u = "http://e.com/robots.txt".toList then
      some ⟨200, "text/plain".toList,
        ("User-agent: *\nSitemap: http://e.com/s1.xml\n" ++
         "Sitemap: http://e.com/sitemap.xml").toList⟩
    else none,
   fun _ _ => [], fun _ => false⟩

/-- Counterexample to claim C8: the defaults `/sitemap.xml` and
`/sitemap_index.xml` come FIRST and the robots.txt `Sitemap:` directives
last, not the other way round as the claim states. -/
theorem discover_sitemaps_c8_counterexample :
    discover_sitemaps envC8 "http://e.com".toList =
      some (["http://e.com/sitemap.xml".toList,
             "http://e.com/sitemap_index.xml".toList,
             "http://e.com/s1.xml".toList],
            [Event.getRobots "http://e.com/robots.txt".toList]) ∧
    dedupPreserve (["http://e.com/s1.xml".toList,
        "http://e.com/sitemap.xml".toList] ++
      ["http://e.com/sitemap.xml".toList,
       "http://e.com/sitemap_index.xml".toList]) ≠
      ["http://e.com/sitemap.xml".toList,
       "http://e.com/sitemap_index.xml".toList,
       "http://e.com/s1.xml".toList] := by decide

/-- Claim C8 (amended): when no explicit sitemap URL is given, the
candidates are `/sitemap.xml`, then `/sitemap_index.xml`, then the
robots.txt `Sitemap:` directives in file order, de-duplicated preserving
first-seen order (so the result is duplicate-free and contains exactly
the candidates). -/
theorem discover_sitemaps_amended (env : Env) (b c1 c2 ru : Str)
    (h1 : urljoin b "/sitemap.xml".toList = some c1)
    (h2 : urljoin b "/sitemap_index.xml".toList = some c2)
    (h3 : urljoin b "/robots.txt".toList = some ru) :
    discover_sitemaps env b =
      some (dedupPreserve ([c1, c2] ++ robotsDirectives env ru),
            [Event.getRobots ru]) ∧
    (dedupPreserve ([c1, c2] ++ robotsDirectives env ru)).Nodup ∧
    ∀ x, x ∈ dedupPreserve ([c1, c2] ++ robotsDirectives env ru) ↔
      x ∈ [c1, c2] ++ robotsDirectives env ru := by
  refine ⟨?_, dedupPreserve_nodup _, fun x => mem_dedupPreserve _ x⟩
  rw [discover_sitemaps, h1, h2, h3]

/-- Witness for the amended C8 theorem: concrete discovery against
`envC8`. -/
theorem discover_sitemaps_amended_witness :
    discover_sitemaps envC8 "http://e.com".toList =
      some (dedupPreserve (["http://e.com/sitemap.xml".toList,
              "http://e.com/sitemap_index.xml".toList] ++
            robotsDirectives envC8 "http://e.com/robots.txt".toList),
            [Event.getRobots "http://e.com/robots.txt".toList]) :=
  (discover_sitemaps_amended envC8 "http://e.com".toList
    "http://e.com/sitemap.xml".toList
    "http://e.com/sitemap_index.xml".toList
    "http://e.com/robots.txt".toList
    (by decide) (by decide) (by decide)).1

/-! ## Claim C9 -/

/-- An environment whose every request raises. -/
def envC9 : Env := ⟨fun _ => none, fun _ _ => [], fun _ => false⟩

/-- An environment whose every request succeeds with a 200 response. -/
def envC9ok : Env :=
  ⟨fun _ => some ⟨200, "text/html".toList, "x".toList⟩,
   fun _ _ => [], fun _ => false⟩

/-- Counterexample to claim C9: with a positive rate limit, a request
failing with a `RequestException` is NOT followed by the rate-limit
sleep — the `except` path returns before `time.sleep` runs. -/
theorem fetch_text_c9_counterexample :
    (0 : ℚ) < 1/2 ∧
    (fetch_text envC9 "http://e.com/x".toList (1/2) []).slept = false := by
  constructor
  · norm_num
  · decide

/-- Claim C9 (amended): the rate-limit sleep runs after every request
that yields a response — success, error status, or content-type
mismatch alike — when the rate limit is positive; a request that raises
is not followed by the sleep. -/
theorem fetch_text_amended :
    (∀ env url rl allowed resp, env.get url = some resp → 0 < rl →
       (fetch_text env url rl allowed).slept = true) ∧
    (∀ env url rl allowed, env.get url = none →
       (fetch_text env url rl allowed).slept = false) := by
  constructor
  · intro env url rl allowed resp h hrl
    rw [fetch_text, h]
    dsimp only
    split
    · exact decide_eq_true hrl
    · split
      · exact decide_eq_true hrl
      · exact decide_eq_true hrl
  · intro env url rl allowed h
    rw [fetch_text, h]

/-- Witness for the amended C9 theorem: a 200 response is followed by
the sleep, an exception is not. -/
theorem fetch_text_amended_witness :
    (fetch_text envC9ok "http://e.com/x".toList (1/2) []).slept = true ∧
    (fetch_text envC9 "http://e.com/x".toList (1/2) []).slept = false :=
  ⟨fetch_text_amended.1 envC9ok "http://e.com/x".toList (1/2) []
     ⟨200, "text/html".toList, "x".toList⟩ (by decide) (by norm_num),
   fetch_text_amended.2 envC9 "http://e.com/x".toList (1/2) [] (by decide)⟩

/-! ## Claim C2 -/

/-- Claim C2: in every crawl run the main loop never fetches the same
page URL twice (a dequeued URL already in the visited set is skipped
before fetching), and the completed-page counter never exceeds
`max_pages`, no matter how many links are discovered and enqueued. -/
theorem crawl_no_refetch_within_budget (cfg : CrawlCfg) (env : Env)
    (fuel : Nat) :
    (pageFetches (crawl cfg env fuel).events).Nodup ∧
    (crawl cfg env fuel).count ≤ cfg.max_pages :=
  ⟨(crawl_inv cfg env fuel).1, (crawl_inv cfg env fuel).2.2.1⟩

/-! ## Claim C10 -/

/-- The C10 scenario: three seeds from a sitemap, every page request
answering with HTTP 500, and a budget of one page. -/
def cfgC10 : CrawlCfg :=
  ⟨"http://e.com".toList, some "http://e.com/sm.xml".toList, 1, 0, true,
   "k".toList⟩

def envC10 : Env :=
  ⟨fun u =>
    if u = "http://e.com/sm.xml".toList then
      some ⟨200, "text/xml".toList,
        ("<urlset><loc>http://e.com/a</loc><loc>http://e.com/b</loc>" ++
         "<loc>http://e.com/c</loc></urlset>").toList⟩
    else some ⟨500, "text/html".toList, []⟩,
   fun _ _ => [], fun _ => false⟩

/-- Claim C10: skipped dequeues never increment the completed-page
counter — the counter equals the number of pages whose manifest entry
was written — and a run can attempt (fetch) more URLs than `max_pages`
while still completing at most `max_pages` pages. -/
theorem crawl_count_is_saved_pages :
    (∀ cfg env fuel, (crawl cfg env fuel).count =
       (savedPages (crawl cfg env fuel).events).length) ∧
    (∃ cfg env fuel, cfg.max_pages <
       (pageFetches (crawl cfg env fuel).events).length ∧
       (crawl cfg env fuel).count ≤ cfg.max_pages) :=
  ⟨fun cfg env fuel => (crawl_inv cfg env fuel).2.2.2,
   ⟨cfgC10, envC10, 10, by decide⟩⟩

/-! ## Claim C7 -/

/-- The C7 scenario: no API key, no explicit sitemap, every request
raising. -/
def cfgC7 : CrawlCfg := ⟨"http://e.com".toList, none, 5, 0, false, []⟩

def envC7 : Env := ⟨fun _ => none, fun _ _ => [], fun _ => false⟩

/-- Counterexample to claim C7: with no API key resolvable the run
still issues the robots.txt request and both sitemap candidate fetches
of the seed phase — the missing-key check only happens afterwards, so
the run is NOT aborted before any fetch occurs. -/
theorem crawl_c7_counterexample :
    cfgC7.api_key = [] ∧
    (crawl cfgC7 envC7 10).events =
      [Event.getRobots "http://e.com/robots.txt".toList,
       Event.getSitemap "http://e.com/sitemap.xml".toList,
       Event.getSitemap "http://e.com/sitemap_index.xml".toList] := by decide

/-- Claim C7 (amended): with no API key the run is aborted before the
main loop — no page is ever fetched and no page is saved — but the
seed-phase requests (robots.txt and sitemap candidates) are still
issued before the missing-key check. -/
theorem crawl_no_api_key_amended (cfg : CrawlCfg) (env : Env) (fuel : Nat)
    (h : cfg.api_key = []) :
    pageFetches (crawl cfg env fuel).events = [] ∧
    savedPages (crawl cfg env fuel).events = [] := by
  obtain ⟨hp, hs⟩ := seedPhase_no_pages cfg env
  unfold crawl
  dsimp only
  split
  · exact ⟨hp, hs⟩
  split
  · exact ⟨hp, hs⟩
  split <;> exact ⟨hp, hs⟩

/-- Witness for the amended C7 theorem at the concrete C7 scenario. -/
theorem crawl_no_api_key_amended_witness :
    pageFetches (crawl cfgC7 envC7 10).events = [] ∧
    savedPages (crawl cfgC7 envC7 10).events = [] :=
  crawl_no_api_key_amended cfgC7 envC7 10 (by decide)

/-! ## Claim C1 -/

/-- The C1 scenario: `allow_subdomains` is off, the base URL is
`example.com`, and the sitemap seeds a page on the strict subdomain
`a.example.com`. -/
def cfgC1 : CrawlCfg :=
  ⟨"https://example.com/".toList, some "https://example.com/sm.xml".toList,
   5, 0, false, "k".toList⟩

def envC1 : Env :=
  ⟨fun u =>
    if u = "https://example.com/sm.xml".toList then
      some ⟨200, "text/xml".toList,
        "<urlset><loc>https://a.example.com/x</loc></urlset>".toList⟩
    else some ⟨200, "text/html".toList, "<html>hi</html>".toList⟩,
   fun _ _ => [], fun _ => false⟩

/-- Claim C1: the same-site check is indeed symmetric on equal
hostnames (first conjunct), but the crawl does NOT respect
`allow_subdomains = false` exactly: the dequeue scope check uses
`same_registrable_domain`, which accepts strict subdomains, so a seeded
subdomain URL is fetched and saved despite the flag being off (second
conjunct — the code-bug divergence). -/
theorem same_site_scope_c1 :
    (∀ a b pa pb, urlparse a [] = some pa → urlparse b [] = some pb →
       hostnameOf pa.netloc = hostnameOf pb.netloc →
       same_registrable_domain a b = true ∧
       same_registrable_domain b a = true) ∧
    (cfgC1.allow_subdomains = false ∧
     Event.getPage "https://a.example.com/x".toList ∈
       (crawl cfgC1 envC1 5).events ∧
     Event.savedPage "https://a.example.com/x".toList "/x".toList ∈
       (crawl cfgC1 envC1 5).events) := by
  constructor
  · intro a b pa pb hpa hpb heq
    have hab : (hostnameOf pa.netloc == hostnameOf pb.netloc) = true :=
      beq_iff_eq.mpr heq
    have hba : (hostnameOf pb.netloc == hostnameOf pa.netloc) = true :=
      beq_iff_eq.mpr heq.symm
    constructor
    · rw [same_registrable_domain, hpa, hpb]
      dsimp only
      rw [hab, Bool.true_or]
    · rw [same_registrable_domain, hpa, hpb]
      dsimp only
      rw [hba, Bool.true_or]
  · exact ⟨rfl, by decide, by decide⟩

/-- Witness for the symmetric part of C1 at two URLs with the same
hostname. -/
theorem same_site_scope_c1_witness :
    same_registrable_domain "https://e.com/a".toList
      "https://e.com/b".toList = true ∧
    same_registrable_domain "https://e.com/b".toList
      "https://e.com/a".toList = true :=
  same_site_scope_c1.1 "https://e.com/a".toList "https://e.com/b".toList
    ⟨"https".toList, "e.com".toList, "/a".toList, [], [], []⟩
    ⟨"https".toList, "e.com".toList, "/b".toList, [], [], []⟩
    (by decide) (by decide) (by decide)

/-! ## Smart truncation (`crawl`, schema_crawler.py lines 780-824)

The page text sent to the LLM is clipped to a character budget of 60000
(`no_truncate` off): a leading window of 40000 characters plus up to one
500-character window per FAQ marker found past the cutoff, joined with
a separator line. -/

/-- Python `str.find`: index of the first occurrence of `needle`, or
`none` for `-1`. -/
def findSub (needle : Str) : Str → Option Nat
  | [] => if needle = [] then some 0 else none
  | c :: rest =>
    if needle.isPrefixOf (c :: rest) then some 0
    else (findSub needle (c :: rest).tail).map (· + 1)

def faq_markers : List Str :=
  ["q:", "a:", "faq", "question", "answer", "q&a"].map String.toList

/-- Stable insertion of a pair into a lexicographically sorted list
(Python `sorted` on 2-tuples). -/
def insertPair (p : Nat × Nat) : List (Nat × Nat) → List (Nat × Nat)
  | [] => [p]
  | q :: rest =>
    if p.1 < q.1 ∨ (p.1 = q.1 ∧ p.2 ≤ q.2) then p :: q :: rest
    else q :: insertPair p rest

def sortPairs : List (Nat × Nat) → List (Nat × Nat)
  | [] => []
  | p :: rest => insertPair p (sortPairs rest)

/-- The `(idx, idx + 500)` windows of the first occurrence of each FAQ
marker (schema_crawler.py lines 789-795). -/
def faqIndices (text_lower : Str) : List (Nat × Nat) :=
  faq_markers.filterMap (fun m =>
    (findSub m text_lower).map (fun i => (i, i + 500)))

/-- The FAQ windows kept for the tail of the view: sorted, starting
after the cutoff, nonblank, shorter than 5000 (schema_crawler.py lines
803-808). -/
def faqSection (text : Str) (se : Nat × Nat) : Str :=
  (text.drop se.1).take (min se.2 text.length - se.1)

def faqContent (text : Str) (keep_chars : Nat)
    (idxs : List (Nat × Nat)) : List Str :=
  (sortPairs idxs).filterMap (fun se =>
    if keep_chars < se.1 then
      if pyStrip (faqSection text se) ≠ [] ∧
          (faqSection text se).length < 5000 then
        some (faqSection text se)
      else none
    else none)

/-- The smart-truncation step for the default `no_truncate = False`
budget of 60000 characters (schema_crawler.py lines 780-824). -/
def truncate_text (text : Str) : Str :=
  if 60000 < text.length then
    let text_lower := text.map Char.toLower
    let faq_indices := faqIndices text_lower
    if faq_indices ≠ [] then
      let keep_chars := min 40000 (60000 - 10000)
      let text_start := text.take keep_chars
      let faq_content := faqContent text keep_chars faq_indices
      let remaining_chars := 60000 - text_start.length
      if faq_content ≠ [] then
        let faq_text :=
          joinSep "\n\n".toList (faq_content.take (remaining_chars / 500))
        if text_start.length + faq_text.length ≤ 60000 then
          text_start ++ "\n\n[FAQ Content from later in page]\n\n".toList ++
            faq_text
        else text_start
      else text_start
    else text.take 60000
  else text

theorem insertPair_length (p : Nat × Nat) :
    ∀ l, (insertPair p l).length = l.length + 1
  | [] => rfl
  | q :: rest => by
    rw [insertPair]
    split
    · rfl
    · rw [List.length_cons, insertPair_length p rest, List.length_cons]

theorem mem_insertPair {x p : Nat × Nat} :
    ∀ {l}, x ∈ insertPair p l → x = p ∨ x ∈ l := by
  intro l
  induction l with
  | nil =>
    intro hx
    rw [insertPair, List.mem_singleton] at hx
    exact Or.inl hx
  | cons q rest ih =>
    intro hx
    rw [insertPair] at hx
    split at hx
    · rcases List.mem_cons.mp hx with rfl | hx
      · exact Or.inl rfl
      · exact Or.inr hx
    · rcases List.mem_cons.mp hx with rfl | hx
      · exact Or.inr (List.mem_cons_self _ _)
      · rcases ih hx with h | h
        · exact Or.inl h
        · exact Or.inr (List.mem_cons_of_mem _ h)

theorem sortPairs_length : ∀ l, (sortPairs l).length = l.length
  | [] => rfl
  | p :: rest => by
    rw [sortPairs, insertPair_length, sortPairs_length rest, List.length_cons]

theorem mem_sortPairs {x : Nat × Nat} :
    ∀ {l}, x ∈ sortPairs l → x ∈ l := by
  intro l
  induction l with
  | nil =>
    intro hx
    exact absurd hx (List.not_mem_nil x)
  | cons p rest ih =>
    intro hx
    rw [sortPairs] at hx
    rcases mem_insertPair hx with rfl | hx
    · exact List.mem_cons_self _ _
    · exact List.mem_cons_of_mem _ (ih hx)

theorem joinSep_cons2 (sep x y : Str) (xs : List Str) :
    joinSep sep (x :: y :: xs) = x ++ sep ++ joinSep sep (y :: xs) := rfl

theorem joinSep_length_le (sep : Str) (k : Nat) :
    ∀ l : List Str, (∀ x ∈ l, x.length ≤ k) →
      (joinSep sep l).length ≤ l.length * (k + sep.length)
  | [], _ => by simp [joinSep]
  | [x], h => by
    rw [joinSep]
    have := h x (List.mem_singleton_self x)
    simp only [List.length_singleton, Nat.one_mul]
    omega
  | x :: y :: xs, h => by
    rw [joinSep_cons2]
    have hx := h x (List.mem_cons_self _ _)
    have hrec := joinSep_length_le sep k (y :: xs)
      (fun a ha => h a (List.mem_cons_of_mem _ ha))
    rw [List.length_append, List.length_append, List.length_cons]
    calc x.length + sep.length + (joinSep sep (y :: xs)).length
        ≤ k + sep.length + (y :: xs).length * (k + sep.length) := by omega
      _ = ((y :: xs).length + 1) * (k + sep.length) := by ring
      _ = _ := by rw [List.length_cons]

/-- Every pair recorded for a FAQ marker is a 500-wide window. -/
theorem faqIndices_shape (tl : Str) :
    ∀ se ∈ faqIndices tl, ∃ i, se = (i, i + 500) := by
  intro se hse
  obtain ⟨m, _, hm⟩ := List.mem_filterMap.mp hse
  rcases hfd : findSub m tl with _ | i
  · rw [hfd] at hm
    exact Option.noConfusion
      (show (none : Option (Nat × Nat)) = some se from hm)
  · rw [hfd] at hm
    exact ⟨i, (Option.some.inj hm).symm⟩

theorem faqIndices_count (tl : Str) : (faqIndices tl).length ≤ 6 := by
  have h := List.length_filterMap_le
    (fun m => (findSub m tl).map (fun i => (i, i + 500))) faq_markers
  exact h.trans (by rw [faq_markers]; rfl)

/-- Every kept FAQ window is at most 500 characters long. -/
theorem faqContent_short (text : Str) (keep : Nat)
    (idxs : List (Nat × Nat))
    (hsh : ∀ se ∈ idxs, ∃ i, se = (i, i + 500)) :
    ∀ x ∈ faqContent text keep idxs, x.length ≤ 500 := by
  intro x hx
  obtain ⟨se, hse, hf⟩ := List.mem_filterMap.mp hx
  obtain ⟨i, rfl⟩ := hsh se (mem_sortPairs hse)
  split at hf
  · split at hf
    · obtain rfl := Option.some.inj hf
      have hle := List.length_take_le
        (min (i, i + 500).2 text.length - (i, i + 500).1)
        (text.drop (i, i + 500).1)
      have : min (i, i + 500).2 text.length - (i, i + 500).1 ≤ 500 := by
        simp only []
        omega
      rw [faqSection]
      omega
    · exact Option.noConfusion hf
  · exact Option.noConfusion hf

theorem faqContent_count (text : Str) (keep : Nat)
    (idxs : List (Nat × Nat)) :
    (faqContent text keep idxs).length ≤ idxs.length := by
  rw [faqContent]
  refine (List.length_filterMap_le _ _).trans ?_
  exact Nat.le_of_eq (sortPairs_length idxs)

/-- Claim C4: for every input text, the truncation step produces a view
of at most 60000 characters, in both the FAQ path (leading window plus
separator plus FAQ windows) and the plain path (leading window), and
trivially when no truncation applies. -/
theorem truncate_text_within_budget (text : Str) :
    (truncate_text text).length ≤ 60000 := by
  rw [truncate_text]
  by_cases hlen : 60000 < text.length
  · rw [if_pos hlen]
    by_cases hfaq : faqIndices (text.map Char.toLower) ≠ []
    · rw [if_pos hfaq]
      have hst : (text.take (min 40000 (60000 - 10000))).length = 40000 := by
        rw [List.length_take]
        omega
      by_cases hfc : faqContent text (min 40000 (60000 - 10000))
          (faqIndices (text.map Char.toLower)) ≠ []
      · rw [if_pos hfc]
        have hshort := faqContent_short text (min 40000 (60000 - 10000))
          (faqIndices (text.map Char.toLower))
          (faqIndices_shape (text.map Char.toLower))
        have hjoin : (joinSep "\n\n".toList
            ((faqContent text (min 40000 (60000 - 10000))
              (faqIndices (text.map Char.toLower))).take
              ((60000 - (text.take (min 40000 (60000 - 10000))).length) / 500))).length
            ≤ 6 * 502 := by
          have hcnt : ((faqContent text (min 40000 (60000 - 10000))
              (faqIndices (text.map Char.toLower))).take
              ((60000 - (text.take (min 40000 (60000 - 10000))).length) / 500)).length ≤ 6 := by
            rw [List.length_take]
            have h1 := (faqContent_count text (min 40000 (60000 - 10000))
              (faqIndices (text.map Char.toLower))).trans
              (faqIndices_count (text.map Char.toLower))
            omega
          have hj := joinSep_length_le "\n\n".toList 500
            ((faqContent text (min 40000 (60000 - 10000))
              (faqIndices (text.map Char.toLower))).take
              ((60000 - (text.take (min 40000 (60000 - 10000))).length) / 500))
            (fun a ha => hshort a (List.mem_of_mem_take ha))
          have hsep : ("\n\n".toList).length = 2 := rfl
          rw [hsep] at hj
          refine hj.trans ?_
          have := Nat.mul_le_mul_right 502 hcnt
          omega
        rw [hst] at hjoin
        dsimp only
        split
        · rw [List.length_append, List.length_append]
          have hmid :
              ("\n\n[FAQ Content from later in page]\n\n".toList).length = 36 :=
            rfl
          rw [hmid, hst]
          omega
        · rw [hst]
          omega
      · rw [if_neg hfc]
        rw [hst]
        omega
    · rw [if_neg hfaq]
      rw [List.length_take]
      omega
  · rw [if_neg hlen]
    omega

/-! ## Size-limit retry protocol (`crawl`, schema_crawler.py lines
930-1003)

`max_retries = 2`: the `while retry_count <= max_retries` loop makes at
most three attempts; a token-limit error at the ceiling triggers exactly
one final aggressive attempt (`text[:20000]`, `sections[:15]`) and
breaks. The progressive shrink `current_text[:int(len(current_text) *
0.7)]` is modeled by an abstract `shrink` function on lengths (Python's
`int(len * 0.7)` instantiates it; any instance satisfies
`shrink n < n` for `n > 0`). -/

inductive ApiOutcome where
  | ok
  | tokenLimit
  | fatal
  deriving DecidableEq

structure Attempt where
  text : Str
  sections : List Str
  aggressive : Bool
  deriving DecidableEq

/-- The retry loop: `r + 1` is the number of `while` iterations left
(`max_retries + 1 - retry_count`); each iteration records the attempted
views; a token-limit outcome at the last permitted iteration appends
the aggressive attempt built from the ORIGINAL text and sections. -/
def retryLoop (oracle : Nat → ApiOutcome) (shrink : Nat → Nat)
    (text0 : Str) (sections0 : List Str) :
    Nat → Nat → Str → List Str → List Attempt
  | 0, _, _, _ => []
  | r + 1, attemptIdx, cur_text, cur_secs =>
    match oracle attemptIdx with
    | .ok => [⟨cur_text, cur_secs, false⟩]
    | .fatal => [⟨cur_text, cur_secs, false⟩]
    | .tokenLimit =>
      if r = 0 then
        [⟨cur_text, cur_secs, false⟩,
         ⟨text0.take 20000,
          if sections0 ≠ [] then sections0.take 15 else sections0, true⟩]
      else
        ⟨cur_text, cur_secs, false⟩ ::
          retryLoop oracle shrink text0 sections0 r (attemptIdx + 1)
            (cur_text.take (shrink cur_text.length))
            (if cur_secs ≠ [] then cur_secs.take (shrink cur_secs.length)
             else cur_secs)

/-- The whole protocol: three permitted `while` iterations starting from
the truncated views `tl`/`sl`, with `text`/`sections` the originals used
by the aggressive fallback. -/
def retryProtocol (oracle : Nat → ApiOutcome) (shrink : Nat → Nat)
    (text : Str) (sections : List Str) (tl : Str) (sl : List Str) :
    List Attempt :=
  retryLoop oracle shrink text sections 3 0 tl sl

theorem take_shrink_lt (shrink : Nat → Nat)
    (hsh : ∀ n, 0 < n → shrink n < n) (t : Str) :
    (t.take (shrink t.length)).length < t.length ∨ t.length = 0 := by
  rcases Nat.eq_zero_or_pos t.length with h | h
  · exact Or.inr h
  · left
    rw [List.length_take]
    have := hsh _ h
    omega

/-- Counterexample to claim C3: starting from an empty text view, every
retry attempt's view has length 0 — retries are NOT strictly smaller
than their predecessors. (`int(0 * 0.7) = 0`; the concrete shrink
`7 * n / 10` agrees at 0.) -/
theorem retry_protocol_c3_counterexample :
    (retryProtocol (fun _ => ApiOutcome.tokenLimit) (fun n => 7 * n / 10)
        [] [] [] []).length = 4 ∧
    ((retryProtocol (fun _ => ApiOutcome.tokenLimit) (fun n => 7 * n / 10)
        [] [] [] []).map (fun a => a.text.length)) = [0, 0, 0, 0] := by decide

/-- Claim C3 (amended): the protocol makes between 1 and 4 attempts
(the three `while` iterations plus at most one aggressive attempt); the
first three attempts are never aggressive; when all four happen the last
one is exactly the aggressive clip (`text[:20000]`, `sections[:15]`);
and along the `while` iterations each retry's text view is strictly
smaller than its predecessor unless the predecessor is already empty. -/
theorem retry_protocol_amended (oracle : Nat → ApiOutcome)
    (shrink : Nat → Nat) (text : Str) (sections : List Str)
    (tl : Str) (sl : List Str)
    (hsh : ∀ n, 0 < n → shrink n < n) :
    1 ≤ (retryProtocol oracle shrink text sections tl sl).length ∧
    (retryProtocol oracle shrink text sections tl sl).length ≤ 4 ∧
    (∀ a ∈ (retryProtocol oracle shrink text sections tl sl).take 3,
       a.aggressive = false) ∧
    ((retryProtocol oracle shrink text sections tl sl).length = 4 →
       (retryProtocol oracle shrink text sections tl sl).getLast? =
         some ⟨text.take 20000,
           (if sections ≠ [] then sections.take 15 else sections), true⟩) ∧
    List.Chain' (fun a b => b.text.length < a.text.length ∨
        a.text.length = 0)
      ((retryProtocol oracle shrink text sections tl sl).take 3) := by
  rcases h0 : oracle 0 with _ | _ | _ <;>
    rcases h1 : oracle 1 with _ | _ | _ <;>
    rcases h2 : oracle 2 with _ | _ | _ <;>
    simp [retryProtocol, retryLoop, h0, h1, h2, List.chain'_cons]
  all_goals (
    rcases Nat.eq_zero_or_pos tl.length with hz | hp
    · rw [List.length_eq_zero] at hz
      subst hz
      simp
    · have ha1 := hsh _ hp
      have hmin : shrink tl.length ⊓ tl.length = shrink tl.length :=
        Nat.min_eq_left (Nat.le_of_lt ha1)
      rcases Nat.eq_zero_or_pos (shrink tl.length) with hz2 | hp2
      · simp [ha1, hmin, hz2, hp]
      · have ha2 := hsh _ hp2
        simp [ha1, hmin, ha2, ha2.trans ha1, hp])

/-- Witness for the amended C3 theorem at a concrete always-throttled
oracle and the integer shrink `7n/10`. -/
theorem retry_protocol_amended_witness :
    (retryProtocol (fun _ => ApiOutcome.tokenLimit) (fun n => 7 * n / 10)
      "abcdefghij".toList [] "abcdefghij".toList []).length ≤ 4 :=
  (retry_protocol_amended (fun _ => ApiOutcome.tokenLimit)
    (fun n => 7 * n / 10) "abcdefghij".toList [] "abcdefghij".toList []
    (fun n hn => by show 7 * n / 10 < n; omega)).2.1

/-! ## Structured outline (`build_structured_outline`,
schema_crawler.py lines 261-405)

The DOM is a mutual inductive (element nodes with attribute lists and
child lists, text nodes); `lxml` lower-cases tag names during parsing.
`get_text(sep, strip=True)` joins the stripped nonempty descendant
strings. -/

mutual
inductive Node where
  | text : Str → Node
  | elem : Str → List (Str × Str) → NodeList → Node
inductive NodeList where
  | nil : NodeList
  | cons : Node → NodeList → NodeList
end

def NodeList.toList : NodeList → List Node
  | .nil => []
  | .cons c r => c :: r.toList

mutual
def nodeStrings : Node → List Str
  | .text s => [s]
  | .elem _ _ cs => listStrings cs
def listStrings : NodeList → List Str
  | .nil => []
  | .cons c r => nodeStrings c ++ listStrings r
end

/-- `node.get_text(sep, strip=True)`. -/
def get_text (sep : Str) (n : Node) : Str :=
  joinSep sep (((nodeStrings n).map pyStrip).filter (· ≠ []))

def nodeName? : Node → Option Str
  | .text _ => none
  | .elem nm _ _ => some nm

def attrGet (attrs : List (Str × Str)) (key : Str) : Option Str :=
  (attrs.find? (fun kv => decide (kv.1 = key))).map (·.2)

/-- `node.find_all(names, recursive=False)`. -/
def directChildrenNamed (nm : Str) (cs : NodeList) : List Node :=
  cs.toList.filter (fun c => decide (nodeName? c = some nm))

mutual
/-- `soup.find_all(p)`: matching descendant elements in document
order. -/
def findAllNode (p : Str → Bool) : Node → List Node
  | .text _ => []
  | .elem _ _ cs => findAllList p cs
def findAllList (p : Str → Bool) : NodeList → List Node
  | .nil => []
  | .cons c r =>
    (match c with
     | .elem nm _ _ => if p nm then [c] else []
     | .text _ => []) ++ findAllNode p c ++ findAllList p r
end

/-- The `dl` Q/A pairing of `block_text` (schema_crawler.py lines
300-312). -/
def dlGo (dds : List Node) : Nat → List Node → List Str
  | _, [] => []
  | i, dt :: rest =>
    ((let q := get_text " ".toList dt
      if q ≠ [] then ["Q: ".toList ++ q] else []) ++
     (match dds.get? i with
      | some dd =>
        let a := get_text " ".toList dd
        if a ≠ [] then ["A: ".toList ++ a] else []
      | none => [])) ++ dlGo dds (i + 1) rest

/-- The `table` rows of `block_text` (schema_crawler.py lines
325-331). -/
def tableRows (n : Node) : List Str :=
  (findAllNode (fun nm => decide (nm = "tr".toList)) n).filterMap (fun tr =>
    let cells := (findAllNode
      (fun nm => decide (nm = "th".toList ∨ nm = "td".toList)) tr).map
      (get_text " ".toList)
    if cells ≠ [] then some (joinSep " | ".toList cells) else none)

mutual
/-- `block_text` (schema_crawler.py lines 287-341). -/
def block_text : Node → Str
  | .text s => pyStrip s
  | .elem name attrs children =>
    let nm := name.map Char.toLower
    if nm = "script".toList ∨ nm = "style".toList ∨ nm = "noscript".toList
    then []
    else if nm = "dl".toList then
      let items := dlGo (directChildrenNamed "dd".toList children) 0
        (directChildrenNamed "dt".toList children)
      if items ≠ [] then joinSep "\n".toList items else []
    else if nm = "dt".toList ∨ nm = "dd".toList then
      get_text " ".toList (.elem name attrs children)
    else if nm = "p".toList ∨ nm = "blockquote".toList ∨
        nm = "pre".toList ∨ nm = "code".toList then
      get_text " ".toList (.elem name attrs children)
    else if nm = "ul".toList ∨ nm = "ol".toList then
      joinSep "\n".toList ((directChildrenNamed "li".toList children).map
        (fun li => "- ".toList ++ get_text " ".toList li))
    else if nm = "table".toList then
      joinSep "\n".toList (tableRows (.elem name attrs children))
    else if nm = "img".toList then
      match attrGet attrs "alt".toList with
      | some alt =>
        if alt ≠ [] then "[image: ".toList ++ alt ++ "]".toList else []
      | none => []
    else joinSep "\n".toList (blockList children)
/-- The generic-container loop of `block_text`: child blocks that
render nonempty. -/
def blockList : NodeList → List Str
  | .nil => []
  | .cons c r =>
    let ct := block_text c
    if ct ≠ [] then ct :: blockList r else blockList r
end

/-- `heading_level` (schema_crawler.py lines 342-346). -/
def heading_level (tag : Str) : Nat :=
  match tag with
  | 'h' :: c :: _ => if c.isDigit then c.toNat - 48 else 7
  | _ => 7

def headingNames : List Str := ["h1", "h2", "h3", "h4", "h5", "h6"].map
  String.toList

def isHeading : Node → Bool
  | .elem nm _ _ => decide (nm ∈ headingNames)
  | .text _ => false

mutual
/-- Every heading element of the document in `find_all` order, with its
previous siblings (nearest first, as `previous_siblings` iterates) and
its next siblings. -/
def headingCtxsNode : Node → List (Node × List Node × List Node)
  | .text _ => []
  | .elem _ _ cs => headingCtxsList [] cs
def headingCtxsList (prev : List Node) :
    NodeList → List (Node × List Node × List Node)
  | .nil => []
  | .cons c rest =>
    (if isHeading c then [(c, prev, rest.toList)] else []) ++
    headingCtxsNode c ++ headingCtxsList (c :: prev) rest
end

def nodeNameOrNil : Node → Str
  | .text _ => []
  | .elem nm _ _ => nm

def isBreakNode (level : Nat) : Node → Bool
  | .elem nm _ _ =>
    decide (nm ∈ headingNames) && decide (heading_level nm ≤ level)
  | .text _ => false

/-- The sibling loop of the section builder (schema_crawler.py lines
374-381): collect rendered blocks until a heading of equal-or-shallower
level. -/
def collectUntil (level : Nat) : List Node → List Str
  | [] => []
  | sib :: rest =>
    if isBreakNode level sib then []
    else
      let bt := block_text sib
      if bt ≠ [] then bt :: collectUntil level rest
      else collectUntil level rest

structure OutlineSection where
  heading : Str
  level : Nat
  sectionText : Str
  deriving DecidableEq

/-- The `sections` list of `build_structured_outline` (schema_crawler.py
lines 355-399): an optional `Intro` from the preface before the first
heading, one section per heading, and an optional trailing `Outro`. -/
def build_sections (doc : Node) : List OutlineSection :=
  let hs := headingCtxsNode doc
  let intro :=
    match hs.head? with
    | some hctx =>
      let preface_texts := ((hctx.2.1.map block_text).filter (· ≠ [])).reverse
      let preface := joinSep "\n".toList
        (preface_texts.filter (fun t => pyStrip t ≠ []))
      if pyStrip preface ≠ [] then
        [⟨"Intro".toList, 0, preface⟩] else []
    | none => []
  let mains := hs.map (fun hctx =>
    let level := heading_level (nodeNameOrNil hctx.1)
    let texts := collectUntil level hctx.2.2
    (⟨get_text [] hctx.1, level,
      joinSep "\n".toList (texts.filter (fun t => pyStrip t ≠ []))⟩ :
      OutlineSection))
  let outro :=
    match hs.getLast? with
    | some hctx =>
      let trail := (hctx.2.2.map block_text).filter (· ≠ [])
      let t := joinSep "\n".toList (trail.filter (fun s => pyStrip s ≠ []))
      if pyStrip t ≠ [] then [⟨"Outro".toList, 7, t⟩] else []
    | none => []
  intro ++ mains ++ outro

/-- The C5 document `<h1>A</h1><p>p1</p><h2>B</h2><p>p2</p>` as parsed
by lxml (wrapped in `html`/`body`). -/
def docC5 : Node :=
  .elem "html".toList [] (.cons (.elem "body".toList []
    (.cons (.elem "h1".toList [] (.cons (.text "A".toList) .nil))
    (.cons (.elem "p".toList [] (.cons (.text "p1".toList) .nil))
    (.cons (.elem "h2".toList [] (.cons (.text "B".toList) .nil))
    (.cons (.elem "p".toList [] (.cons (.text "p2".toList) .nil))
     .nil))))) .nil)

/-- Counterexample to claim C5: the document does NOT yield the two
claimed sections — the `<h2>` heading's own text leaks into the `<h1>`
section body (deeper headings contribute their rendered text), and a
synthetic `Outro` section duplicates the content after the last
heading. -/
theorem build_sections_c5_counterexample :
    build_sections docC5 ≠
      [⟨"A".toList, 1, "p1".toList⟩,
       ⟨"B".toList, 2, "p2".toList⟩] := by decide

/-- Claim C5 (amended): sectionizing `<h1>A</h1><p>p1</p><h2>B</h2>
<p>p2</p>` yields exactly three sections: the `<h1>` section collects
following siblings up to the next equal-or-shallower heading, with the
deeper `<h2>` terminating nothing but contributing its own rendered
text (`B`) and `p2` to the body; the `<h2>` section holds `p2`; and a
synthetic `Outro` section (level 7) repeats the trailing content after
the last heading. No `Intro` section is produced. -/
theorem build_sections_c5_amended :
    build_sections docC5 =
      [⟨"A".toList, 1, "p1\nB\np2".toList⟩,
       ⟨"B".toList, 2, "p2".toList⟩,
       ⟨"Outro".toList, 7, "p2".toList⟩] := by decide

end SchemaCrawler
